import Mathlib

/-
Verification of the scull family of storage drivers (scullc / scullv page
variants and the scullp mapping code) against their natural-language
specification.  The drivers expose a linear, resizable byte store built from
a singly-linked sequence of segments, each owning an array of `qset` lazily
allocated blocks of `quantum` bytes.

Shallow embedding conventions:
  - kernel pointers that may be NULL become `Option`;
  - a block's contents become `List Nat` (one entry per byte);
  - the segment chain (the `scullc_dev` node itself is the head segment)
    becomes `List Seg`, head first;
  - fallible external events (interruptible lock wait, kmalloc /
    kmem_cache_alloc / vmalloc failure, copy_to_user / copy_from_user
    faults) are Boolean parameters of the operation: `true` means the event
    succeeds;
  - the file position `*f_pos` is passed and returned explicitly;
  - error returns use the `Err` type mirroring the negative errno values.

Each operation is translated line by line from src/scullc/main.c (the
scullv read/write/trim path in src/scullv/main.c is identical except that
its quantum is `PAGE_SIZE << order` and its allocator is vmalloc; the
theorems below are stated on the embedded scullc path, which is the shared
structure cited by the claims).  The mapping code is translated from
src/scullv/mmap.c and the scullp mmap file (src/unnamed/part_000).
-/

/-- Errno-style error results: ERESTARTSYS, ENOMEM, EFAULT, EBUSY, EINVAL,
ENODEV. -/
inductive Err where
  | eRESTARTSYS
  | eNOMEM
  | eFAULT
  | eBUSY
  | eINVAL
  | eNODEV
deriving Repr, DecidableEq

/-- One node of the segment chain: `struct scullc_dev`'s list part.  `data`
is the optional block array (`void **data`); each slot is an optional block
(`void *`), a block being its list of bytes. -/
structure Seg where
  data : Option (List (Option (List Nat)))
deriving Repr, DecidableEq

/-- A freshly kmalloc'ed, zeroed chain node (`memset(dev->next, 0, ...)`):
its `data` pointer is NULL. -/
def emptySeg : Seg := ⟨none⟩

/-- Device state: the head `struct scullc_dev` with its configuration and
the whole chain (head included) in `segs`.  `vmas` is the active-mapping
counter. -/
structure Dev where
  quantum : Nat
  qset : Nat
  size : Nat
  vmas : Nat
  segs : List Seg
deriving Repr, DecidableEq

/-- Embeds `scullc_follow` (src/scullc/main.c lines 145-158): walk `n` links
from the head, kmalloc'ing and zeroing a fresh node whenever `next` is NULL.
The result is the whole chain after the walk (the C function returns the
`n`-th node; callers of this embedding index the result at `n`).  The `[]`
case is unreachable in C, where the head node always exists. -/
def scullc_follow : List Seg → Nat → List Seg
  | [], _ => []
  | s :: rest, 0 => s :: rest
  | s :: rest, n + 1 =>
    s :: scullc_follow (if rest.isEmpty then [emptySeg] else rest) n

/-- Embeds `scullc_read` (src/scullc/main.c lines 161-207).  Arguments
mirror the C call: device, `*f_pos`, `count`, plus the outcome of
`down_interruptible` (`intr = true` means the wait was interrupted) and of
`copy_to_user` (`copyOk = false` means the user buffer faults; a copy of 0
bytes cannot fault).  Returns (result, device, `*f_pos`); an `ok` result
carries the bytes copied to the user. -/
def scullc_read (dev : Dev) (fpos : Nat) (count : Nat)
    (intr : Bool) (copyOk : Bool) : Except Err (List Nat) × Dev × Nat :=
  if intr then (.error .eRESTARTSYS, dev, fpos)
  else if fpos > dev.size then (.ok [], dev, fpos)
  else
    let quantum := dev.quantum
    let qset := dev.qset
    let itemsize := quantum * qset
    let count1 := if fpos + count > dev.size then dev.size - fpos else count
    let item := fpos / itemsize
    let rest := fpos % itemsize
    let s_pos := rest / quantum
    let q_pos := rest % quantum
    let segs1 := scullc_follow dev.segs item
    let dev1 : Dev := { dev with segs := segs1 }
    match segs1[item]? with
    | none => (.ok [], dev1, fpos)
    | some seg =>
      match seg.data with
      | none => (.ok [], dev1, fpos)
      | some slots =>
        match slots.getD s_pos none with
        | none => (.ok [], dev1, fpos)
        | some blk =>
          let count2 := if count1 > quantum - q_pos then quantum - q_pos else count1
          if count2 ≠ 0 ∧ ¬copyOk then (.error .eFAULT, dev1, fpos)
          else (.ok ((blk.drop q_pos).take count2), dev1, fpos + count2)

/-- Embeds `scullc_write` (src/scullc/main.c lines 209-268).  `gQuantum` is
the module-global `scullc_quantum` used by the `memset` that zero-fills a
fresh block (and the object size of the kmem cache); it equals
`dev.quantum` whenever the global has not been changed since the device was
set up or trimmed.  `src` is the user buffer contents; `dataAllocOk`,
`blockAllocOk` model the kmalloc of the block array and the cache
allocation of the block; `copyOk` models `copy_from_user` (a copy of 0
bytes cannot fault).  Partial allocations performed before a failure remain
in the returned device, exactly as in the C code. -/
def scullc_write (gQuantum : Nat) (dev : Dev) (fpos : Nat) (src : List Nat)
    (count : Nat) (intr dataAllocOk blockAllocOk copyOk : Bool) :
    Except Err Nat × Dev × Nat :=
  if intr then (.error .eRESTARTSYS, dev, fpos)
  else
    let quantum := dev.quantum
    let qset := dev.qset
    let itemsize := quantum * qset
    let item := fpos / itemsize
    let rest := fpos % itemsize
    let s_pos := rest / quantum
    let q_pos := rest % quantum
    let segs1 := scullc_follow dev.segs item
    match segs1[item]? with
    | none => (.error .eNOMEM, { dev with segs := segs1 }, fpos)
    | some seg =>
      if seg.data.isNone ∧ ¬dataAllocOk then
        (.error .eNOMEM, { dev with segs := segs1 }, fpos)
      else
        let slots := seg.data.getD (List.replicate qset none)
        if (slots.getD s_pos none).isNone ∧ ¬blockAllocOk then
          (.error .eNOMEM,
           { dev with segs := segs1.set item ⟨some slots⟩ }, fpos)
        else
          let blk := (slots.getD s_pos none).getD (List.replicate gQuantum 0)
          let n := if count > quantum - q_pos then quantum - q_pos else count
          if n ≠ 0 ∧ ¬copyOk then
            (.error .eFAULT,
             { dev with segs := segs1.set item ⟨some (slots.set s_pos (some blk))⟩ },
             fpos)
          else
            let blk2 := blk.take q_pos ++ src.take n ++ blk.drop (q_pos + n)
            let fpos2 := fpos + n
            let size2 := if dev.size < fpos2 then fpos2 else dev.size
            (.ok n,
             { dev with
                segs := segs1.set item ⟨some (slots.set s_pos (some blk2))⟩,
                size := size2 },
             fpos2)

/-- Embeds `scullc_trim` (src/scullc/main.c lines 400-427).  `gQuantum`,
`gQset` are the module globals `scullc_quantum`, `scullc_qset` (the current
configured defaults).  Refused with EBUSY while `vmas` is nonzero; otherwise
every block and block array is freed, every node but the head is freed, the
head's `data` and `next` become NULL, `size` becomes 0 and the configuration
is restored from the globals. -/
def scullc_trim (gQuantum gQset : Nat) (dev : Dev) : Except Err Unit × Dev :=
  if dev.vmas ≠ 0 then (.error .eBUSY, dev)
  else (.ok (),
        { quantum := gQuantum, qset := gQset, size := 0,
          vmas := dev.vmas, segs := [emptySeg] })

/-- Embeds `scullc_llseek` (src/scullc/main.c lines 362-384): whence 0 is
SEEK_SET, 1 is SEEK_CUR, 2 is SEEK_END; a negative resulting position (and
any other whence) yields EINVAL and leaves the position unchanged, otherwise
the new position is stored and returned. -/
def scullc_llseek (dev : Dev) (fpos : Nat) (off : Int) (whence : Nat) :
    Except Err Nat :=
  match whence with
  | 0 => if off < 0 then .error .eINVAL else .ok off.toNat
  | 1 =>
    let newpos : Int := (fpos : Int) + off
    if newpos < 0 then .error .eINVAL else .ok newpos.toNat
  | 2 =>
    let newpos : Int := (dev.size : Int) + off
    if newpos < 0 then .error .eINVAL else .ok newpos.toNat
  | _ => .error .eINVAL

/-- Raw form of the block observation, on an explicit configuration and
chain: the block (if any) backing byte offset `x`, following the address
translation `item = x / itemsize`, `s_pos = (x % itemsize) / quantum` used
by both read and write. -/
def lookupBlock (quantum qset : Nat) (segs : List Seg) (x : Nat) :
    Option (List Nat) :=
  match segs[x / (quantum * qset)]? with
  | none => none
  | some seg =>
    match seg.data with
    | none => none
    | some slots => slots.getD (x % (quantum * qset) / quantum) none

/-- Raw form of the byte observation. -/
def lookupByte (quantum qset : Nat) (segs : List Seg) (x : Nat) : Option Nat :=
  match lookupBlock quantum qset segs x with
  | none => none
  | some blk => blk[x % (quantum * qset) % quantum]?

/-- Observation: the block (if any) backing byte offset `o` of the device. -/
def blockAt (dev : Dev) (o : Nat) : Option (List Nat) :=
  lookupBlock dev.quantum dev.qset dev.segs o

/-- Observation: the byte stored at logical offset `o`, or `none` if `o`
falls in a hole (missing segment, block array or block). -/
def byteAt (dev : Dev) (o : Nat) : Option Nat :=
  lookupByte dev.quantum dev.qset dev.segs o

/-- Structural well-formedness: every allocated block array holds exactly
`qset` slots (`kmalloc(qset * sizeof(void *))`) and every allocated block
holds exactly `quantum` bytes (the allocator's object size).  Every device
the driver builds satisfies this. -/
def wfB (dev : Dev) : Bool :=
  dev.segs.all fun seg =>
    match seg.data with
    | none => true
    | some slots =>
      slots.length == dev.qset &&
      slots.all fun s =>
        match s with
        | none => true
        | some blk => blk.length == dev.quantum

/-- PAGE_SHIFT of the modelled platform (4096-byte pages). -/
def PAGE_SHIFT : Nat := 12

/-- Device state for the page-backed variants (scullp / scullv), whose
mapping code the claims cite: `order` is the page-run order (block size
`PAGE_SIZE << order`); each chain node's block array holds optional page
handles, a page being identified by a number (its index in the global page
array); the page reference counts live outside the device in a map from
page id to count. -/
structure PDev where
  order : Nat
  qset : Nat
  size : Nat
  vmas : Nat
  segs : List (Option (List (Option Nat)))
deriving Repr, DecidableEq

/-- Embeds the lookup loop of `scullp_vma_nopage` / `scullv_vma_nopage`
(src/unnamed/part_000 lines 78-84, src/scullv/mmap.c lines 78-84): starting
from the head with a page-unit offset, step to `next` subtracting `qset`
while the offset is at least `qset`; running off the chain leaves the page
pointer NULL, as does a node with no block array or an empty slot. -/
def pageLookup : List (Option (List (Option Nat))) → Nat → Nat → Option Nat
  | [], _, _ => none
  | seg :: rest, qset, off =>
    if off ≥ qset then pageLookup rest qset (off - qset)
    else
      match seg with
      | none => none
      | some slots => slots.getD off none

/-- Embeds `scullp_vma_nopage` (src/unnamed/part_000 lines 58-94; the
scullv version in src/scullv/mmap.c lines 58-99 is identical except that it
resolves the page with `vmalloc_to_page` instead of `virt_to_page`, which
the page-id abstraction subsumes).  `off` is the absolute byte offset of
the fault, `refcnt` the page reference counts.  A fault at or past `size`,
or into a hole, yields no page (VM_FAULT_NOPAGE, a fatal access fault) and
leaves every reference count unchanged; otherwise the backing page is
returned with its count incremented (`get_page`). -/
def scullp_vma_nopage (dev : PDev) (refcnt : Nat → Nat) (off : Nat) :
    Option Nat × (Nat → Nat) :=
  if off ≥ dev.size then (none, refcnt)
  else
    match pageLookup dev.segs dev.qset (off >>> PAGE_SHIFT) with
    | none => (none, refcnt)
    | some pid => (some pid, fun p => if p = pid then refcnt p + 1 else refcnt p)

/-- Embeds `scullp_mmap` (src/unnamed/part_000 lines 102-115): a device
whose order is nonzero (multi-page blocks) is refused with ENODEV before
anything changes; otherwise the vm operations are installed and
`scullp_vma_open` increments `vmas`. -/
def scullp_mmap (dev : PDev) : Except Err PDev :=
  if dev.order ≠ 0 then .error .eNODEV
  else .ok { dev with vmas := dev.vmas + 1 }

/-- Embeds `scullv_mmap` (src/scullv/mmap.c lines 107-114): unlike
`scullp_mmap`, this function performs no order check at all — it installs
the vm operations and increments `vmas` unconditionally. -/
def scullv_mmap (dev : PDev) : Except Err PDev :=
  .ok { dev with vmas := dev.vmas + 1 }

/-- The transfer loop a caller runs to write a byte sequence: each call
writes `min(remaining, quantum - intra_offset)` bytes, so no single call
crosses a block boundary; the loop continues with the unconsumed suffix.
The external events all succeed (`intr = false`, allocations and copies
succeed).  `fuel` bounds the number of calls; `src.length` calls always
suffice when `quantum > 0`. -/
def writeLoop (gQuantum : Nat) : Nat → Dev → Nat → List Nat → Dev × Nat
  | 0, dev, fpos, _ => (dev, fpos)
  | _ + 1, dev, fpos, [] => (dev, fpos)
  | fuel + 1, dev, fpos, src =>
    match scullc_write gQuantum dev fpos src src.length false true true true with
    | (.ok n, dev1, fpos1) => writeLoop gQuantum fuel dev1 fpos1 (src.drop n)
    | (.error _, dev1, fpos1) => (dev1, fpos1)

/-- The transfer loop a caller runs to read `want` bytes: each call returns
at most one block's worth; the loop stops on a 0-byte result (end-of-data
or hole) or an error, and otherwise continues with the remaining count. -/
def readLoop : Nat → Dev → Nat → Nat → List Nat × Dev × Nat
  | 0, dev, fpos, _ => ([], dev, fpos)
  | _ + 1, dev, fpos, 0 => ([], dev, fpos)
  | fuel + 1, dev, fpos, want =>
    match scullc_read dev fpos want false true with
    | (.ok bs, dev1, fpos1) =>
      if bs.isEmpty then ([], dev1, fpos1)
      else
        let r := readLoop fuel dev1 fpos1 (want - bs.length)
        (bs ++ r.1, r.2.1, r.2.2)
    | (.error _, dev1, fpos1) => ([], dev1, fpos1)

/-- One driver entry point, for stating properties of operation sequences:
a read, a write, a seek or a trim, with their external-event outcomes. -/
inductive Op where
  | opRead (count : Nat) (intr copyOk : Bool)
  | opWrite (gq : Nat) (src : List Nat) (count : Nat)
      (intr dataAllocOk blockAllocOk copyOk : Bool)
  | opSeek (off : Int) (whence : Nat)
  | opTrim (gq gqs : Nat)
deriving Repr, DecidableEq

/-- Whether an operation is the trim reset. -/
def Op.isTrim : Op → Bool
  | .opTrim _ _ => true
  | _ => false

/-- Run one operation on (device, file position). -/
def stepOp : Dev × Nat → Op → Dev × Nat
  | (d, p), .opRead c i cok => (scullc_read d p c i cok).2
  | (d, p), .opWrite gq src c i a b cok => (scullc_write gq d p src c i a b cok).2
  | (d, p), .opSeek off w =>
    match scullc_llseek d p off w with
    | .ok np => (d, np)
    | .error _ => (d, p)
  | (d, p), .opTrim g1 g2 => ((scullc_trim g1 g2 d).2, p)

/-- Run a sequence of operations. -/
def runOps (s : Dev × Nat) (ops : List Op) : Dev × Nat :=
  ops.foldl stepOp s

/-- A freshly initialised device with the default-style configuration
`quantum = 4`, `qset = 4` (scaled down from 4000 x 1000 so that witnesses
evaluate quickly): head segment present, no data, size 0. -/
def devE : Dev := ⟨4, 4, 0, 0, [emptySeg]⟩

/-- A device holding a hole: two bytes were written at offset 20
(`quantum = 4`, `qset = 2`, so itemsize 8: segment 2, slot 1), leaving
segments 0 and 1 and slot 0 of segment 2 unallocated while `size = 22`. -/
def devHole : Dev := ⟨4, 2, 22, 0, [⟨none⟩, ⟨none⟩, ⟨some [none, some [7, 7, 0, 0]]⟩]⟩

/-- A one-byte device (`quantum = 1`, `qset = 1`, `size = 1`) whose chain
is exactly the head segment: a read at offset 1 (= size, a segment
boundary) sends the follow walk past the tail. -/
def devSegBound : Dev := ⟨1, 1, 1, 0, [⟨some [some [42]]⟩]⟩

/-- A small empty device (`quantum = 2`, `qset = 2`). -/
def devSmall : Dev := ⟨2, 2, 0, 0, [emptySeg]⟩

/-- A device with two live mappings (`vmas = 2`) and nonzero size. -/
def devBusy : Dev := ⟨4, 4, 7, 2, [emptySeg]⟩

/-- A page-backed device configured with multi-page blocks (order 1). -/
def pdevMulti : PDev := ⟨1, 4, 4096, 0, [some [some 3]]⟩

/-- An order-0 page-backed device: one page (id 7) in slot 0, a hole in
slot 1, `size = 8192`. -/
def pdevMap : PDev := ⟨0, 2, 8192, 0, [some [some 7, none]]⟩

/-- An all-zero page reference-count map. -/
def rc0 : Nat → Nat := fun _ => 0

/-- The follow walk on a chain with a head node appends exactly the missing
zeroed nodes up to index `n` and touches nothing else. -/
theorem scullc_follow_eq (n : Nat) (segs : List Seg) (h : segs ≠ []) :
    scullc_follow segs n = segs ++ List.replicate (n + 1 - segs.length) emptySeg := by
  induction n generalizing segs with
  | zero =>
    match segs with
    | s :: rest =>
      have h0 : 0 + 1 - (s :: rest).length = 0 := by
        simp only [List.length_cons]; omega
      rw [h0]
      simp [scullc_follow]
  | succ n ih =>
    match segs with
    | [s] =>
      have h1 : scullc_follow [s] (n + 1) = s :: scullc_follow [emptySeg] n := rfl
      have h2 : n + 1 + 1 - ([s] : List Seg).length = n + 1 := by
        simp only [List.length_cons, List.length_nil]; omega
      rw [h1, ih [emptySeg] (by simp), h2]
      simp [List.replicate_succ]
    | s :: r :: t =>
      have h1 : scullc_follow (s :: r :: t) (n + 1) = s :: scullc_follow (r :: t) n := rfl
      have h2 : n + 1 + 1 - (s :: r :: t).length = n + 1 - (r :: t).length := by
        simp only [List.length_cons]; omega
      rw [h1, ih (r :: t) (by simp), h2]
      simp

/-- Follow never disturbs the nodes that already exist. -/
theorem scullc_follow_getElem_lt (segs : List Seg) (n i : Nat) (h : segs ≠ [])
    (hi : i < segs.length) : (scullc_follow segs n)[i]? = segs[i]? := by
  rw [scullc_follow_eq n segs h, List.getElem?_append_left hi]

/-- After following to index `n`, the node at index `n` exists: it is the
pre-existing node if the chain already reached `n`, a fresh zeroed node
otherwise. -/
theorem scullc_follow_getElem_self (segs : List Seg) (n : Nat) (h : segs ≠ []) :
    (scullc_follow segs n)[n]? = some (segs.getD n emptySeg) := by
  rw [scullc_follow_eq n segs h]
  rcases Nat.lt_or_ge n segs.length with hlt | hge
  · rw [List.getElem?_append_left hlt, List.getD_eq_getElem?_getD,
      List.getElem?_eq_getElem hlt]
    rfl
  · rw [List.getElem?_append_right hge, List.getElem?_replicate,
      List.getD_eq_getElem?_getD, List.getElem?_eq_none hge]
    have hpos : 0 < segs.length := List.length_pos_of_ne_nil h
    have : n - segs.length < n + 1 - segs.length := by omega
    simp [this]

/-- The chain length after following to index `n`. -/
theorem scullc_follow_length (segs : List Seg) (n : Nat) (h : segs ≠ []) :
    (scullc_follow segs n).length = max segs.length (n + 1) := by
  rw [scullc_follow_eq n segs h, List.length_append, List.length_replicate]
  omega

/-- A defaulted lookup that produced `some` pins down the raw lookup. -/
theorem getD_eq_some {α : Type} {l : List (Option α)} {s : Nat} {b : α}
    (h : l.getD s none = some b) : l[s]? = some (some b) := by
  rw [List.getD_eq_getElem?_getD] at h
  cases ho : l[s]? with
  | none => rw [ho] at h; simp at h
  | some o => rw [ho] at h; simp only [Option.getD_some] at h; rw [h]

/-- Unpacking the well-formedness bound at one chain node. -/
theorem wfB_at {dev : Dev} (h : wfB dev = true) {i : Nat} {seg : Seg}
    (hi : dev.segs[i]? = some seg) {slots : List (Option (List Nat))}
    (hd : seg.data = some slots) :
    slots.length = dev.qset ∧
      ∀ {s : Nat} {blk : List Nat}, slots.getD s none = some blk →
        blk.length = dev.quantum := by
  unfold wfB at h
  rw [List.all_eq_true] at h
  have hm := h seg (List.getElem?_mem hi)
  rw [hd] at hm
  simp only [Bool.and_eq_true, beq_iff_eq, List.all_eq_true] at hm
  refine ⟨hm.1, ?_⟩
  intro s blk hs
  have hmem : some blk ∈ slots := List.getElem?_mem (getD_eq_some hs)
  have := hm.2 _ hmem
  simpa using this

/-- Decomposition of a byte offset into (segment, slot, intra-block)
coordinates, with their bounds. -/
theorem offset_decomp (quantum qset fpos : Nat) (hq : 0 < quantum) (hqs : 0 < qset) :
    fpos = fpos / (quantum * qset) * (quantum * qset) +
        (fpos % (quantum * qset) / quantum * quantum +
         fpos % (quantum * qset) % quantum) ∧
      fpos % (quantum * qset) / quantum < qset ∧
      fpos % (quantum * qset) % quantum < quantum := by
  have hI : 0 < quantum * qset := Nat.mul_pos hq hqs
  have h1 := Nat.div_add_mod fpos (quantum * qset)
  have h2 := Nat.div_add_mod (fpos % (quantum * qset)) quantum
  refine ⟨?_, ?_, Nat.mod_lt _ hq⟩
  · rw [Nat.mul_comm (fpos / (quantum * qset)) (quantum * qset),
      Nat.mul_comm (fpos % (quantum * qset) / quantum) quantum]
    linarith [h1, h2]
  · have hr : fpos % (quantum * qset) < quantum * qset := Nat.mod_lt _ hI
    rw [Nat.div_lt_iff_lt_mul hq, Nat.mul_comm qset quantum]
    exact hr

/-- Recomputing the translator's coordinates from an encoded offset. -/
theorem encode_indices (quantum qset item s a : Nat) (hq : 0 < quantum)
    (hs : s < qset) (ha : a < quantum) :
    (item * (quantum * qset) + (s * quantum + a)) / (quantum * qset) = item ∧
      (item * (quantum * qset) + (s * quantum + a)) % (quantum * qset) / quantum = s ∧
      (item * (quantum * qset) + (s * quantum + a)) % (quantum * qset) % quantum = a := by
  have hI : 0 < quantum * qset := Nat.mul_pos hq (Nat.lt_of_le_of_lt (Nat.zero_le s) hs)
  have hr : s * quantum + a < quantum * qset := by
    have h1 : s * quantum + a < (s + 1) * quantum := by
      have := ha; nlinarith
    have h2 : (s + 1) * quantum ≤ qset * quantum :=
      Nat.mul_le_mul_right quantum hs
    calc s * quantum + a < (s + 1) * quantum := h1
      _ ≤ qset * quantum := h2
      _ = quantum * qset := Nat.mul_comm _ _
  have hkey : item * (quantum * qset) + (s * quantum + a) =
      s * quantum + a + (quantum * qset) * item := by ring
  rw [hkey]
  rw [Nat.add_mul_div_left _ _ hI, Nat.add_mul_mod_self_left,
    Nat.div_eq_of_lt hr, Nat.mod_eq_of_lt hr]
  have hq1 : s * quantum + a = a + quantum * s := by ring
  rw [hq1, Nat.add_mul_div_left _ _ hq, Nat.add_mul_mod_self_left,
    Nat.div_eq_of_lt ha, Nat.mod_eq_of_lt ha]
  omega

/-- With the lock acquired and every allocation and copy succeeding, a
write reduces to its success branch. -/
theorem scullc_write_ok_eq (gQ : Nat) (dev : Dev) (fpos : Nat) (src : List Nat)
    (count : Nat) (hsegs : dev.segs ≠ []) :
    scullc_write gQ dev fpos src count false true true true =
      (let quantum := dev.quantum
       let itemsize := quantum * dev.qset
       let item := fpos / itemsize
       let s_pos := fpos % itemsize / quantum
       let q_pos := fpos % itemsize % quantum
       let seg := dev.segs.getD item emptySeg
       let slots := seg.data.getD (List.replicate dev.qset none)
       let blk := (slots.getD s_pos none).getD (List.replicate gQ 0)
       let n := if count > quantum - q_pos then quantum - q_pos else count
       let blk2 := blk.take q_pos ++ src.take n ++ blk.drop (q_pos + n)
       (.ok n,
        { dev with
            segs := (scullc_follow dev.segs item).set item
              ⟨some (slots.set s_pos (some blk2))⟩,
            size := if dev.size < fpos + n then fpos + n else dev.size },
        fpos + n)) := by
  unfold scullc_write
  simp only [Bool.false_eq_true, if_false]
  rw [scullc_follow_getElem_self dev.segs _ hsegs]
  simp only [not_true, and_false, if_false, ne_eq]

/-- Writing into a slot and reading it back with the NULL default. -/
theorem getD_set_self {α : Type} (l : List (Option α)) (i : Nat) (v : Option α)
    (h : i < l.length) : (l.set i v).getD i none = v := by
  rw [List.getD_eq_getElem?_getD, List.getElem?_set_self h]
  rfl

/-- Writing one slot leaves the defaulted lookup of any other slot alone. -/
theorem getD_set_ne {α : Type} (l : List (Option α)) (i j : Nat) (v : Option α)
    (h : i ≠ j) : (l.set i v).getD j none = l.getD j none := by
  rw [List.getD_eq_getElem?_getD, List.getElem?_set_ne h,
    ← List.getD_eq_getElem?_getD]

/-- Every defaulted lookup in a fresh all-NULL block array is NULL. -/
theorem replicate_getD_none {α : Type} (k s : Nat) :
    (List.replicate k (none : Option α)).getD s none = none := by
  rw [List.getD_eq_getElem?_getD, List.getElem?_replicate]
  split <;> rfl

/-- The node the follow walk hands to read/write is either a node of the
original chain or a freshly zeroed one. -/
theorem seg_cases (dev : Dev) (item : Nat) :
    (dev.segs.getD item emptySeg).data = none ∨
      dev.segs[item]? = some (dev.segs.getD item emptySeg) := by
  rcases Nat.lt_or_ge item dev.segs.length with hlt | hge
  · right
    rw [List.getD_eq_getElem?_getD, List.getElem?_eq_getElem hlt]
    rfl
  · left
    rw [List.getD_eq_getElem?_getD, List.getElem?_eq_none hge]
    rfl

/-- Dimensions of the block array and block that the success branch of a
write manipulates. -/
theorem write_dims (dev : Dev) (hwf : wfB dev = true) (item s_pos gQ : Nat)
    (hg : gQ = dev.quantum) :
    ((dev.segs.getD item emptySeg).data.getD (List.replicate dev.qset none)).length
        = dev.qset ∧
      ((((dev.segs.getD item emptySeg).data.getD
            (List.replicate dev.qset none)).getD s_pos none).getD
          (List.replicate gQ 0)).length = dev.quantum := by
  rcases seg_cases dev item with hnone | hsome
  · rw [hnone]
    constructor
    · simp
    · rw [Option.getD_none, replicate_getD_none]
      simp [hg]
  · cases hd : (dev.segs.getD item emptySeg).data with
    | none =>
      constructor
      · simp
      · rw [Option.getD_none, replicate_getD_none]
        simp [hg]
    | some slots =>
      obtain ⟨hlen, hblk⟩ := wfB_at hwf hsome hd
      simp only [Option.getD_some]
      refine ⟨hlen, ?_⟩
      cases hs : slots.getD s_pos none with
      | none => rw [Option.getD_none]; simp [hg]
      | some blk => rw [Option.getD_some]; exact hblk hs

/-- The byte observation only looks at the configuration and the chain. -/
theorem byteAt_mk (q s sz v : Nat) (l : List Seg) (x : Nat) :
    byteAt ⟨q, s, sz, v, l⟩ x = lookupByte q s l x := rfl

/-- The block observation only looks at the configuration and the chain. -/
theorem blockAt_mk (q s sz v : Nat) (l : List Seg) (x : Nat) :
    blockAt ⟨q, s, sz, v, l⟩ x = lookupBlock q s l x := rfl

/-- Reducing the block lookup once the target chain node is known. -/
theorem lookupBlock_seg {q s : Nat} {l : List Seg} {x : Nat} {seg : Seg}
    (h : l[x / (q * s)]? = some seg) :
    lookupBlock q s l x =
      match seg.data with
      | none => none
      | some slots => slots.getD (x % (q * s) / q) none := by
  unfold lookupBlock
  rw [h]

/-- A missing chain node means a missing block. -/
theorem lookupBlock_noseg {q s : Nat} {l : List Seg} {x : Nat}
    (h : l[x / (q * s)]? = none) : lookupBlock q s l x = none := by
  unfold lookupBlock
  rw [h]

/-- Reducing the byte lookup once the block is known. -/
theorem lookupByte_block {q s : Nat} {l : List Seg} {x : Nat} {blk : List Nat}
    (h : lookupBlock q s l x = some blk) :
    lookupByte q s l x = blk[x % (q * s) % q]? := by
  unfold lookupByte
  rw [h]

/-- A missing block means a missing byte. -/
theorem lookupByte_noblock {q s : Nat} {l : List Seg} {x : Nat}
    (h : lookupBlock q s l x = none) : lookupByte q s l x = none := by
  unfold lookupByte
  rw [h]

/-- A stored byte pins down the chain node, block array and block that hold
it. -/
theorem lookupByte_some_elim {q s : Nat} {l : List Seg} {x : Nat} {b : Nat}
    (h : lookupByte q s l x = some b) :
    ∃ seg slots blk, l[x / (q * s)]? = some seg ∧ seg.data = some slots ∧
      slots.getD (x % (q * s) / q) none = some blk ∧
      blk[x % (q * s) % q]? = some b := by
  cases h1 : l[x / (q * s)]? with
  | none => rw [lookupByte_noblock (lookupBlock_noseg h1)] at h; exact absurd h (by simp)
  | some seg =>
    have hb := lookupBlock_seg (x := x) h1
    cases h2 : seg.data with
    | none =>
      rw [h2] at hb
      rw [lookupByte_noblock hb] at h
      exact absurd h (by simp)
    | some slots =>
      rw [h2] at hb
      simp only [] at hb
      cases h3 : slots.getD (x % (q * s) / q) none with
      | none =>
        rw [h3] at hb
        rw [lookupByte_noblock hb] at h
        exact absurd h (by simp)
      | some blk =>
        rw [h3] at hb
        rw [lookupByte_block hb] at h
        exact ⟨seg, slots, blk, rfl, h2, h3, h⟩

/-- Every slot of the block array the write path works on satisfies the
per-block well-formedness check. -/
theorem write_slots_all (dev : Dev) (hwf : wfB dev = true) (item : Nat) :
    ∀ o ∈ (dev.segs.getD item emptySeg).data.getD (List.replicate dev.qset none),
      (match o with
        | none => true
        | some blk => blk.length == dev.quantum) = true := by
  rcases seg_cases dev item with hnone | hsome
  · rw [hnone, Option.getD_none]
    intro o ho
    rw [List.eq_of_mem_replicate ho]
  · cases hd : (dev.segs.getD item emptySeg).data with
    | none =>
      rw [Option.getD_none]
      intro o ho
      rw [List.eq_of_mem_replicate ho]
    | some slots =>
      unfold wfB at hwf
      rw [List.all_eq_true] at hwf
      have hm := hwf _ (List.getElem?_mem hsome)
      rw [hd] at hm
      simp only [Bool.and_eq_true, beq_iff_eq, List.all_eq_true] at hm
      rw [Option.getD_some]
      intro o ho
      have := hm.2 o ho
      cases o with
      | none => rfl
      | some blk => simpa using this

set_option maxHeartbeats 1000000 in
theorem scullc_write_spec (gQ : Nat) (dev : Dev) (fpos : Nat) (src : List Nat)
    (count n : Nat) (hq : 0 < dev.quantum) (hqs : 0 < dev.qset)
    (hsegs : dev.segs ≠ []) (hwf : wfB dev = true) (hg : gQ = dev.quantum)
    (hsrc : count ≤ src.length)
    (hn : n = min count (dev.quantum - fpos % (dev.quantum * dev.qset) % dev.quantum)) :
    (scullc_write gQ dev fpos src count false true true true).1 = .ok n ∧
    (scullc_write gQ dev fpos src count false true true true).2.2 = fpos + n ∧
    (scullc_write gQ dev fpos src count false true true true).2.1.quantum = dev.quantum ∧
    (scullc_write gQ dev fpos src count false true true true).2.1.qset = dev.qset ∧
    (scullc_write gQ dev fpos src count false true true true).2.1.vmas = dev.vmas ∧
    (scullc_write gQ dev fpos src count false true true true).2.1.size
        = max dev.size (fpos + n) ∧
    (scullc_write gQ dev fpos src count false true true true).2.1.segs ≠ [] ∧
    wfB (scullc_write gQ dev fpos src count false true true true).2.1 = true ∧
    (∀ i, i < n →
      byteAt (scullc_write gQ dev fpos src count false true true true).2.1 (fpos + i)
        = src[i]?) ∧
    (∀ x b, byteAt dev x = some b → x < fpos ∨ fpos + n ≤ x →
      byteAt (scullc_write gQ dev fpos src count false true true true).2.1 x = some b) := by
  obtain ⟨hfdec, hsp_lt, hqp_lt⟩ := offset_decomp dev.quantum dev.qset fpos hq hqs
  obtain ⟨hslotsLen, hblkQ⟩ :=
    write_dims dev hwf (fpos / (dev.quantum * dev.qset)) (fpos % (dev.quantum * dev.qset) / dev.quantum) gQ hg
  have hslotsAll := write_slots_all dev hwf (fpos / (dev.quantum * dev.qset))
  have hred := scullc_write_ok_eq gQ dev fpos src count hsegs
  simp only [] at hred
  have hnn : (if count > dev.quantum - fpos % (dev.quantum * dev.qset) % dev.quantum
      then dev.quantum - fpos % (dev.quantum * dev.qset) % dev.quantum else count) = n := by
    rw [hn]; split <;> omega
  rw [hnn] at hred
  have hn_le_count : n ≤ count := by rw [hn]; exact Nat.min_le_left _ _
  have hn_le_rem : n ≤ dev.quantum - fpos % (dev.quantum * dev.qset) % dev.quantum := by
    rw [hn]; exact Nat.min_le_right _ _
  have hn_src : n ≤ src.length := le_trans hn_le_count hsrc
  have hfollow_len :
      (scullc_follow dev.segs (fpos / (dev.quantum * dev.qset))).length
        = max dev.segs.length (fpos / (dev.quantum * dev.qset) + 1) :=
    scullc_follow_length _ _ hsegs
  have hlp : 0 < dev.segs.length := List.length_pos_of_ne_nil hsegs
  have hitem_lt : fpos / (dev.quantum * dev.qset) < (scullc_follow dev.segs (fpos / (dev.quantum * dev.qset))).length := by
    rw [hfollow_len]; omega
  have hsposlt : fpos % (dev.quantum * dev.qset) / dev.quantum < ((dev.segs.getD (fpos / (dev.quantum * dev.qset)) emptySeg).data.getD (List.replicate dev.qset none)).length := by
    rw [hslotsLen]; exact hsp_lt
  have htk : (List.take (fpos % (dev.quantum * dev.qset) % dev.quantum) ((((dev.segs.getD (fpos / (dev.quantum * dev.qset)) emptySeg).data.getD (List.replicate dev.qset none)).getD (fpos % (dev.quantum * dev.qset) / dev.quantum) none).getD (List.replicate gQ 0))).length = fpos % (dev.quantum * dev.qset) % dev.quantum := by
    rw [List.length_take, hblkQ]; omega
  have hmin : min n src.length = n := by omega
  rw [hred]
  refine ⟨rfl, rfl, rfl, rfl, rfl, ?_, ?_, ?_, ?_, ?_⟩
  · show (if dev.size < fpos + n then fpos + n else dev.size) = max dev.size (fpos + n)
    split <;> omega
  · apply List.ne_nil_of_length_pos
    rw [List.length_set, hfollow_len]
    omega
  · unfold wfB
    simp only []
    rw [List.all_eq_true]
    intro sg hmem
    rcases List.mem_or_eq_of_mem_set hmem with hmem1 | rfl
    · rw [scullc_follow_eq _ _ hsegs] at hmem1
      rcases List.mem_append.mp hmem1 with hmem2 | hmem3
      · unfold wfB at hwf
        rw [List.all_eq_true] at hwf
        exact hwf sg hmem2
      · rw [List.eq_of_mem_replicate hmem3]
        rfl
    · simp only [Bool.and_eq_true, beq_iff_eq, List.all_eq_true]
      refine ⟨by rw [List.length_set]; exact hslotsLen, ?_⟩
      intro o ho
      rcases List.mem_or_eq_of_mem_set ho with ho1 | rfl
      · exact hslotsAll o ho1
      · show ((List.take (fpos % (dev.quantum * dev.qset) % dev.quantum) ((((dev.segs.getD (fpos / (dev.quantum * dev.qset)) emptySeg).data.getD (List.replicate dev.qset none)).getD (fpos % (dev.quantum * dev.qset) / dev.quantum) none).getD (List.replicate gQ 0)) ++ List.take n src ++ List.drop (fpos % (dev.quantum * dev.qset) % dev.quantum + n) ((((dev.segs.getD (fpos / (dev.quantum * dev.qset)) emptySeg).data.getD (List.replicate dev.qset none)).getD (fpos % (dev.quantum * dev.qset) / dev.quantum) none).getD (List.replicate gQ 0))).length == dev.quantum) = true
        rw [beq_iff_eq, List.length_append, List.length_append,
          List.length_take, List.length_take, List.length_drop, hblkQ]
        omega
  · intro i hi
    have hqpi : fpos % (dev.quantum * dev.qset) % dev.quantum + i < dev.quantum := by omega
    have hxdec : fpos + i
        = fpos / (dev.quantum * dev.qset) * (dev.quantum * dev.qset) +
          (fpos % (dev.quantum * dev.qset) / dev.quantum * dev.quantum + (fpos % (dev.quantum * dev.qset) % dev.quantum + i)) := by
      conv_lhs => rw [hfdec]
      ring
    obtain ⟨hidx1, hidx2, hidx3⟩ :=
      encode_indices dev.quantum dev.qset (fpos / (dev.quantum * dev.qset)) (fpos % (dev.quantum * dev.qset) / dev.quantum) (fpos % (dev.quantum * dev.qset) % dev.quantum + i) hq hsp_lt hqpi
    rw [← hxdec] at hidx1 hidx2 hidx3
    rw [byteAt_mk]
    have hseg2 : ((scullc_follow dev.segs (fpos / (dev.quantum * dev.qset))).set (fpos / (dev.quantum * dev.qset)) (⟨some (((dev.segs.getD (fpos / (dev.quantum * dev.qset)) emptySeg).data.getD (List.replicate dev.qset none)).set (fpos % (dev.quantum * dev.qset) / dev.quantum) (some (List.take (fpos % (dev.quantum * dev.qset) % dev.quantum) ((((dev.segs.getD (fpos / (dev.quantum * dev.qset)) emptySeg).data.getD (List.replicate dev.qset none)).getD (fpos % (dev.quantum * dev.qset) / dev.quantum) none).getD (List.replicate gQ 0)) ++ List.take n src ++ List.drop (fpos % (dev.quantum * dev.qset) % dev.quantum + n) ((((dev.segs.getD (fpos / (dev.quantum * dev.qset)) emptySeg).data.getD (List.replicate dev.qset none)).getD (fpos % (dev.quantum * dev.qset) / dev.quantum) none).getD (List.replicate gQ 0)))))⟩ : Seg))[(fpos + i) / (dev.quantum * dev.qset)]? = some (⟨some (((dev.segs.getD (fpos / (dev.quantum * dev.qset)) emptySeg).data.getD (List.replicate dev.qset none)).set (fpos % (dev.quantum * dev.qset) / dev.quantum) (some (List.take (fpos % (dev.quantum * dev.qset) % dev.quantum) ((((dev.segs.getD (fpos / (dev.quantum * dev.qset)) emptySeg).data.getD (List.replicate dev.qset none)).getD (fpos % (dev.quantum * dev.qset) / dev.quantum) none).getD (List.replicate gQ 0)) ++ List.take n src ++ List.drop (fpos % (dev.quantum * dev.qset) % dev.quantum + n) ((((dev.segs.getD (fpos / (dev.quantum * dev.qset)) emptySeg).data.getD (List.replicate dev.qset none)).getD (fpos % (dev.quantum * dev.qset) / dev.quantum) none).getD (List.replicate gQ 0)))))⟩ : Seg) := by
      rw [hidx1]
      exact List.getElem?_set_self hitem_lt
    have hb : lookupBlock dev.quantum dev.qset ((scullc_follow dev.segs (fpos / (dev.quantum * dev.qset))).set (fpos / (dev.quantum * dev.qset)) (⟨some (((dev.segs.getD (fpos / (dev.quantum * dev.qset)) emptySeg).data.getD (List.replicate dev.qset none)).set (fpos % (dev.quantum * dev.qset) / dev.quantum) (some (List.take (fpos % (dev.quantum * dev.qset) % dev.quantum) ((((dev.segs.getD (fpos / (dev.quantum * dev.qset)) emptySeg).data.getD (List.replicate dev.qset none)).getD (fpos % (dev.quantum * dev.qset) / dev.quantum) none).getD (List.replicate gQ 0)) ++ List.take n src ++ List.drop (fpos % (dev.quantum * dev.qset) % dev.quantum + n) ((((dev.segs.getD (fpos / (dev.quantum * dev.qset)) emptySeg).data.getD (List.replicate dev.qset none)).getD (fpos % (dev.quantum * dev.qset) / dev.quantum) none).getD (List.replicate gQ 0)))))⟩ : Seg)) (fpos + i) = some (List.take (fpos % (dev.quantum * dev.qset) % dev.quantum) ((((dev.segs.getD (fpos / (dev.quantum * dev.qset)) emptySeg).data.getD (List.replicate dev.qset none)).getD (fpos % (dev.quantum * dev.qset) / dev.quantum) none).getD (List.replicate gQ 0)) ++ List.take n src ++ List.drop (fpos % (dev.quantum * dev.qset) % dev.quantum + n) ((((dev.segs.getD (fpos / (dev.quantum * dev.qset)) emptySeg).data.getD (List.replicate dev.qset none)).getD (fpos % (dev.quantum * dev.qset) / dev.quantum) none).getD (List.replicate gQ 0))) := by
      rw [lookupBlock_seg hseg2]
      simp only []
      rw [hidx2]
      exact getD_set_self _ _ _ hsposlt
    rw [lookupByte_block hb, hidx3]
    rw [List.getElem?_append_left (by rw [List.length_append, htk, List.length_take, hmin]; omega)]
    rw [List.getElem?_append_right (by rw [htk]; omega)]
    rw [htk]
    have hidxi : fpos % (dev.quantum * dev.qset) % dev.quantum + i - (fpos % (dev.quantum * dev.qset) % dev.quantum) = i := by omega
    rw [hidxi, List.getElem?_take]
    simp [hi]
  · intro x b hx hrange
    obtain ⟨segx, slotsx, blkx, hx1, hx2, hx3, hx4⟩ :=
      lookupByte_some_elim (q := dev.quantum) (s := dev.qset) (l := dev.segs) (x := x) hx
    have hxb : x / (dev.quantum * dev.qset) < dev.segs.length := (List.getElem?_eq_some.mp hx1).1
    rw [byteAt_mk]
    by_cases hxi : x / (dev.quantum * dev.qset) = fpos / (dev.quantum * dev.qset)
    · have hsegeq : dev.segs.getD (fpos / (dev.quantum * dev.qset)) emptySeg = segx := by
        rw [← hxi, List.getD_eq_getElem?_getD, hx1]
        rfl
      have hslotseq : ((dev.segs.getD (fpos / (dev.quantum * dev.qset)) emptySeg).data.getD (List.replicate dev.qset none) : List (Option (List Nat))) = slotsx := by
        rw [hsegeq, hx2]
        rfl
      have hseg2 : ((scullc_follow dev.segs (fpos / (dev.quantum * dev.qset))).set (fpos / (dev.quantum * dev.qset)) (⟨some (((dev.segs.getD (fpos / (dev.quantum * dev.qset)) emptySeg).data.getD (List.replicate dev.qset none)).set (fpos % (dev.quantum * dev.qset) / dev.quantum) (some (List.take (fpos % (dev.quantum * dev.qset) % dev.quantum) ((((dev.segs.getD (fpos / (dev.quantum * dev.qset)) emptySeg).data.getD (List.replicate dev.qset none)).getD (fpos % (dev.quantum * dev.qset) / dev.quantum) none).getD (List.replicate gQ 0)) ++ List.take n src ++ List.drop (fpos % (dev.quantum * dev.qset) % dev.quantum + n) ((((dev.segs.getD (fpos / (dev.quantum * dev.qset)) emptySeg).data.getD (List.replicate dev.qset none)).getD (fpos % (dev.quantum * dev.qset) / dev.quantum) none).getD (List.replicate gQ 0)))))⟩ : Seg))[x / (dev.quantum * dev.qset)]? = some (⟨some (((dev.segs.getD (fpos / (dev.quantum * dev.qset)) emptySeg).data.getD (List.replicate dev.qset none)).set (fpos % (dev.quantum * dev.qset) / dev.quantum) (some (List.take (fpos % (dev.quantum * dev.qset) % dev.quantum) ((((dev.segs.getD (fpos / (dev.quantum * dev.qset)) emptySeg).data.getD (List.replicate dev.qset none)).getD (fpos % (dev.quantum * dev.qset) / dev.quantum) none).getD (List.replicate gQ 0)) ++ List.take n src ++ List.drop (fpos % (dev.quantum * dev.qset) % dev.quantum + n) ((((dev.segs.getD (fpos / (dev.quantum * dev.qset)) emptySeg).data.getD (List.replicate dev.qset none)).getD (fpos % (dev.quantum * dev.qset) / dev.quantum) none).getD (List.replicate gQ 0)))))⟩ : Seg) := by
        rw [hxi]
        exact List.getElem?_set_self hitem_lt
      by_cases hxs : x % (dev.quantum * dev.qset) / dev.quantum = fpos % (dev.quantum * dev.qset) / dev.quantum
      · have hblkeq : ((((dev.segs.getD (fpos / (dev.quantum * dev.qset)) emptySeg).data.getD (List.replicate dev.qset none)).getD (fpos % (dev.quantum * dev.qset) / dev.quantum) none).getD (List.replicate gQ 0) : List Nat) = blkx := by
          rw [hslotseq, ← hxs, hx3]
          rfl
        have hxdec2 := (offset_decomp dev.quantum dev.qset x hq hqs).1
        rw [hxi, hxs] at hxdec2
        have key : x % (dev.quantum * dev.qset) % dev.quantum < fpos % (dev.quantum * dev.qset) % dev.quantum ∨ fpos % (dev.quantum * dev.qset) % dev.quantum + n ≤ x % (dev.quantum * dev.qset) % dev.quantum := by
          rcases hrange with hlt | hge
          · left
            linarith [hxdec2, hfdec, hlt]
          · right
            linarith [hxdec2, hfdec, hge]
        have hb2 : lookupBlock dev.quantum dev.qset ((scullc_follow dev.segs (fpos / (dev.quantum * dev.qset))).set (fpos / (dev.quantum * dev.qset)) (⟨some (((dev.segs.getD (fpos / (dev.quantum * dev.qset)) emptySeg).data.getD (List.replicate dev.qset none)).set (fpos % (dev.quantum * dev.qset) / dev.quantum) (some (List.take (fpos % (dev.quantum * dev.qset) % dev.quantum) ((((dev.segs.getD (fpos / (dev.quantum * dev.qset)) emptySeg).data.getD (List.replicate dev.qset none)).getD (fpos % (dev.quantum * dev.qset) / dev.quantum) none).getD (List.replicate gQ 0)) ++ List.take n src ++ List.drop (fpos % (dev.quantum * dev.qset) % dev.quantum + n) ((((dev.segs.getD (fpos / (dev.quantum * dev.qset)) emptySeg).data.getD (List.replicate dev.qset none)).getD (fpos % (dev.quantum * dev.qset) / dev.quantum) none).getD (List.replicate gQ 0)))))⟩ : Seg)) x = some (List.take (fpos % (dev.quantum * dev.qset) % dev.quantum) ((((dev.segs.getD (fpos / (dev.quantum * dev.qset)) emptySeg).data.getD (List.replicate dev.qset none)).getD (fpos % (dev.quantum * dev.qset) / dev.quantum) none).getD (List.replicate gQ 0)) ++ List.take n src ++ List.drop (fpos % (dev.quantum * dev.qset) % dev.quantum + n) ((((dev.segs.getD (fpos / (dev.quantum * dev.qset)) emptySeg).data.getD (List.replicate dev.qset none)).getD (fpos % (dev.quantum * dev.qset) / dev.quantum) none).getD (List.replicate gQ 0))) := by
          rw [lookupBlock_seg hseg2]
          simp only []
          rw [hxs]
          exact getD_set_self _ _ _ hsposlt
        rw [lookupByte_block hb2]
        rcases key with hu | hu
        · rw [List.getElem?_append_left (by rw [List.length_append, htk, List.length_take, hmin]; omega)]
          rw [List.getElem?_append_left (by rw [htk]; omega)]
          rw [List.getElem?_take, if_pos hu, hblkeq]
          exact hx4
        · rw [List.getElem?_append_right (by rw [List.length_append, htk, List.length_take, hmin]; omega)]
          rw [List.length_append, htk, List.length_take, hmin, List.getElem?_drop]
          have hix : fpos % (dev.quantum * dev.qset) % dev.quantum + n + (x % (dev.quantum * dev.qset) % dev.quantum - (fpos % (dev.quantum * dev.qset) % dev.quantum + n)) = x % (dev.quantum * dev.qset) % dev.quantum := by omega
          rw [hix, hblkeq]
          exact hx4
      · have hb2 : lookupBlock dev.quantum dev.qset ((scullc_follow dev.segs (fpos / (dev.quantum * dev.qset))).set (fpos / (dev.quantum * dev.qset)) (⟨some (((dev.segs.getD (fpos / (dev.quantum * dev.qset)) emptySeg).data.getD (List.replicate dev.qset none)).set (fpos % (dev.quantum * dev.qset) / dev.quantum) (some (List.take (fpos % (dev.quantum * dev.qset) % dev.quantum) ((((dev.segs.getD (fpos / (dev.quantum * dev.qset)) emptySeg).data.getD (List.replicate dev.qset none)).getD (fpos % (dev.quantum * dev.qset) / dev.quantum) none).getD (List.replicate gQ 0)) ++ List.take n src ++ List.drop (fpos % (dev.quantum * dev.qset) % dev.quantum + n) ((((dev.segs.getD (fpos / (dev.quantum * dev.qset)) emptySeg).data.getD (List.replicate dev.qset none)).getD (fpos % (dev.quantum * dev.qset) / dev.quantum) none).getD (List.replicate gQ 0)))))⟩ : Seg)) x = some blkx := by
          rw [lookupBlock_seg hseg2]
          simp only []
          rw [getD_set_ne _ _ _ _ (fun hc => hxs hc.symm), hslotseq]
          exact hx3
        rw [lookupByte_block hb2]
        exact hx4
    · have hb2 : lookupBlock dev.quantum dev.qset ((scullc_follow dev.segs (fpos / (dev.quantum * dev.qset))).set (fpos / (dev.quantum * dev.qset)) (⟨some (((dev.segs.getD (fpos / (dev.quantum * dev.qset)) emptySeg).data.getD (List.replicate dev.qset none)).set (fpos % (dev.quantum * dev.qset) / dev.quantum) (some (List.take (fpos % (dev.quantum * dev.qset) % dev.quantum) ((((dev.segs.getD (fpos / (dev.quantum * dev.qset)) emptySeg).data.getD (List.replicate dev.qset none)).getD (fpos % (dev.quantum * dev.qset) / dev.quantum) none).getD (List.replicate gQ 0)) ++ List.take n src ++ List.drop (fpos % (dev.quantum * dev.qset) % dev.quantum + n) ((((dev.segs.getD (fpos / (dev.quantum * dev.qset)) emptySeg).data.getD (List.replicate dev.qset none)).getD (fpos % (dev.quantum * dev.qset) / dev.quantum) none).getD (List.replicate gQ 0)))))⟩ : Seg)) x = some blkx := by
        have hget : ((scullc_follow dev.segs (fpos / (dev.quantum * dev.qset))).set (fpos / (dev.quantum * dev.qset)) (⟨some (((dev.segs.getD (fpos / (dev.quantum * dev.qset)) emptySeg).data.getD (List.replicate dev.qset none)).set (fpos % (dev.quantum * dev.qset) / dev.quantum) (some (List.take (fpos % (dev.quantum * dev.qset) % dev.quantum) ((((dev.segs.getD (fpos / (dev.quantum * dev.qset)) emptySeg).data.getD (List.replicate dev.qset none)).getD (fpos % (dev.quantum * dev.qset) / dev.quantum) none).getD (List.replicate gQ 0)) ++ List.take n src ++ List.drop (fpos % (dev.quantum * dev.qset) % dev.quantum + n) ((((dev.segs.getD (fpos / (dev.quantum * dev.qset)) emptySeg).data.getD (List.replicate dev.qset none)).getD (fpos % (dev.quantum * dev.qset) / dev.quantum) none).getD (List.replicate gQ 0)))))⟩ : Seg))[x / (dev.quantum * dev.qset)]? = some segx := by
          rw [List.getElem?_set_ne (fun hc => hxi hc.symm)]
          rw [scullc_follow_getElem_lt _ _ _ hsegs hxb]
          exact hx1
        rw [lookupBlock_seg hget, hx2]
        simp only []
        exact hx3
      rw [lookupByte_block hb2]
      exact hx4

/-- A present block pins down the chain node and block array that hold it. -/
theorem lookupBlock_some_elim {q s : Nat} {l : List Seg} {x : Nat} {blk : List Nat}
    (h : lookupBlock q s l x = some blk) :
    ∃ seg slots, l[x / (q * s)]? = some seg ∧ seg.data = some slots ∧
      slots.getD (x % (q * s) / q) none = some blk := by
  cases h1 : l[x / (q * s)]? with
  | none => rw [lookupBlock_noseg h1] at h; exact absurd h (by simp)
  | some seg =>
    have hb := lookupBlock_seg (x := x) h1
    cases h2 : seg.data with
    | none =>
      rw [h2] at hb
      rw [hb] at h
      exact absurd h (by simp)
    | some slots =>
      rw [h2] at hb
      simp only [] at hb
      rw [hb] at h
      exact ⟨seg, slots, rfl, h2, h⟩

/-- The follow walk is the identity on indices the chain already covers. -/
theorem scullc_follow_of_lt (segs : List Seg) (n : Nat) (h : segs ≠ [])
    (hn : n < segs.length) : scullc_follow segs n = segs := by
  rw [scullc_follow_eq n segs h]
  have h0 : n + 1 - segs.length = 0 := by omega
  rw [h0]
  simp

/-- A read whose offset is strictly inside `size` and backed by a block
returns the block's bytes from the intra-block offset, clamped by the
remaining size and the block end, advancing the position accordingly and
leaving the device untouched. -/
theorem scullc_read_chunk (dev : Dev) (fpos count : Nat) (blk : List Nat)
    (hfp : fpos < dev.size) (hb : blockAt dev fpos = some blk) :
    scullc_read dev fpos count false true =
      (.ok ((blk.drop (fpos % (dev.quantum * dev.qset) % dev.quantum)).take
          (min (min count (dev.size - fpos))
            (dev.quantum - fpos % (dev.quantum * dev.qset) % dev.quantum))),
       dev,
       fpos + min (min count (dev.size - fpos))
         (dev.quantum - fpos % (dev.quantum * dev.qset) % dev.quantum)) := by
  obtain ⟨seg, slots, hx1, hx2, hx3⟩ := lookupBlock_some_elim (l := dev.segs) hb
  have hlt : fpos / (dev.quantum * dev.qset) < dev.segs.length :=
    (List.getElem?_eq_some.mp hx1).1
  have hne : dev.segs ≠ [] := by
    intro hcon
    rw [hcon] at hlt
    simp at hlt
  unfold scullc_read
  simp only [Bool.false_eq_true, if_false]
  rw [if_neg (by omega : ¬ fpos > dev.size)]
  try simp only []
  rw [scullc_follow_of_lt _ _ hne hlt, hx1]
  try simp only []
  rw [hx2]
  try simp only []
  rw [hx3]
  try simp only []
  simp only [not_true, and_false, if_false]
  have hc : (if (if fpos + count > dev.size then dev.size - fpos else count) >
        dev.quantum - fpos % (dev.quantum * dev.qset) % dev.quantum
      then dev.quantum - fpos % (dev.quantum * dev.qset) % dev.quantum
      else (if fpos + count > dev.size then dev.size - fpos else count)) =
      min (min count (dev.size - fpos))
        (dev.quantum - fpos % (dev.quantum * dev.qset) % dev.quantum) := by
    split_ifs <;> omega
  rw [hc]

/-- A read at or past `size`, or at an in-range offset whose block is
missing (hole), returns zero bytes and no error, for any outcome of the
user-buffer copy. -/
theorem scullc_read_zero (dev : Dev) (fpos count : Nat) (copyOk : Bool)
    (h : dev.size ≤ fpos ∨ blockAt dev fpos = none) :
    (scullc_read dev fpos count false copyOk).1 = .ok [] := by
  unfold scullc_read
  simp only [Bool.false_eq_true, if_false]
  by_cases hgt : fpos > dev.size
  · rw [if_pos hgt]
  · rw [if_neg hgt]
    try simp only []
    split
    · rfl
    · rename_i xo seg hs1
      split
      · rfl
      · rename_i xd slots hs2
        split
        · rfl
        · rename_i xs blk hs3
          -- the block exists: rule out the hole disjunct, force fpos = size
          by_cases hemp : dev.segs = []
          · rw [hemp] at hs1
            simp [scullc_follow] at hs1
          · rw [scullc_follow_getElem_self dev.segs _ hemp] at hs1
            have hseg : dev.segs.getD (fpos / (dev.quantum * dev.qset)) emptySeg = seg := by
              injection hs1
            rcases seg_cases dev (fpos / (dev.quantum * dev.qset)) with hdn | hsome
            · rw [hseg, hs2] at hdn
              exact absurd hdn (by simp)
            · have hbond : blockAt dev fpos = some blk := by
                unfold blockAt
                rw [hseg] at hsome
                rw [lookupBlock_seg hsome, hs2]
                try simp only []
                exact hs3
              rcases h with hsz | hblk
              · have hfe : fpos = dev.size := le_antisymm (by omega) hsz
                have hc1 : (if fpos + count > dev.size then dev.size - fpos else count) = 0 := by
                  split <;> omega
                rw [hc1]
                have hc2 : (if 0 > dev.quantum - fpos % (dev.quantum * dev.qset) % dev.quantum
                    then dev.quantum - fpos % (dev.quantum * dev.qset) % dev.quantum
                    else 0) = 0 := by split <;> omega
                rw [hc2]
                rw [if_neg (by simp)]
                simp
              · rw [hbond] at hblk
                exact absurd hblk (by simp)

/-- The follow walk starting from a NULL head stays empty (unreachable in
C, where the device record is the head node). -/
theorem scullc_follow_nil (n : Nat) : scullc_follow [] n = [] := by
  cases n <;> rfl

/-- What a read does to the device, in every branch: configuration, size
and the mapping counter are untouched, no block array or block is created
or modified, and the chain either stays identical or merely gains zeroed
nodes appended by the follow walk. -/
theorem scullc_read_state (dev : Dev) (fpos count : Nat) (intr copyOk : Bool) :
    (scullc_read dev fpos count intr copyOk).2.1.quantum = dev.quantum ∧
    (scullc_read dev fpos count intr copyOk).2.1.qset = dev.qset ∧
    (scullc_read dev fpos count intr copyOk).2.1.size = dev.size ∧
    (scullc_read dev fpos count intr copyOk).2.1.vmas = dev.vmas ∧
    ∃ k, (scullc_read dev fpos count intr copyOk).2.1.segs
      = dev.segs ++ List.replicate k emptySeg := by
  have hsegs1 : ∃ k, scullc_follow dev.segs (fpos / (dev.quantum * dev.qset))
      = dev.segs ++ List.replicate k emptySeg := by
    by_cases hemp : dev.segs = []
    · refine ⟨0, ?_⟩
      rw [hemp, scullc_follow_nil]
      simp
    · exact ⟨_, scullc_follow_eq _ _ hemp⟩
  unfold scullc_read
  cases intr with
  | true => exact ⟨rfl, rfl, rfl, rfl, 0, by simp⟩
  | false =>
    simp only [Bool.false_eq_true, if_false]
    by_cases hgt : fpos > dev.size
    · rw [if_pos hgt]
      exact ⟨rfl, rfl, rfl, rfl, 0, by simp⟩
    · rw [if_neg hgt]
      try simp only []
      repeat' split
      all_goals exact ⟨rfl, rfl, rfl, rfl, hsegs1⟩

/-- The file position moved by a read: success advances it by exactly the
number of bytes handed back; every failure leaves it where it was. -/
theorem scullc_read_fpos (dev : Dev) (fpos count : Nat) (intr copyOk : Bool)
    (hwf : wfB dev = true) :
    (∀ bs, (scullc_read dev fpos count intr copyOk).1 = .ok bs →
       (scullc_read dev fpos count intr copyOk).2.2 = fpos + bs.length) ∧
    (∀ e, (scullc_read dev fpos count intr copyOk).1 = .error e →
       (scullc_read dev fpos count intr copyOk).2.2 = fpos) := by
  unfold scullc_read
  cases intr with
  | true =>
    exact ⟨fun bs hbs => absurd hbs (by simp), fun e he => rfl⟩
  | false =>
    simp only [Bool.false_eq_true, if_false]
    by_cases hgt : fpos > dev.size
    · rw [if_pos hgt]
      refine ⟨?_, fun e he => absurd he (by simp)⟩
      intro bs hbs
      injection hbs with h1
      rw [← h1]
      rfl
    · rw [if_neg hgt]
      try simp only []
      generalize hC1 : (if fpos + count > dev.size then dev.size - fpos else count) = c1
      generalize hC2 : (if c1 > dev.quantum - fpos % (dev.quantum * dev.qset) % dev.quantum
          then dev.quantum - fpos % (dev.quantum * dev.qset) % dev.quantum else c1) = c2
      have hc2le : c2 ≤ dev.quantum - fpos % (dev.quantum * dev.qset) % dev.quantum := by
        rw [← hC2]; split <;> omega
      split
      · refine ⟨?_, fun e he => absurd he (by simp)⟩
        intro bs hbs
        injection hbs with h1
        rw [← h1]
        rfl
      · rename_i xo seg hs1
        split
        · refine ⟨?_, fun e he => absurd he (by simp)⟩
          intro bs hbs
          injection hbs with h1
          rw [← h1]
          rfl
        · rename_i xd slots hs2
          split
          · refine ⟨?_, fun e he => absurd he (by simp)⟩
            intro bs hbs
            injection hbs with h1
            rw [← h1]
            rfl
          · rename_i xs blk hs3
            have hblkQ : blk.length = dev.quantum := by
              by_cases hemp : dev.segs = []
              · rw [hemp, scullc_follow_nil] at hs1
                simp at hs1
              · rw [scullc_follow_getElem_self dev.segs _ hemp] at hs1
                have hseg : dev.segs.getD (fpos / (dev.quantum * dev.qset)) emptySeg
                    = seg := by
                  injection hs1
                rcases seg_cases dev (fpos / (dev.quantum * dev.qset)) with hdn | hsome
                · rw [hseg, hs2] at hdn
                  exact absurd hdn (by simp)
                · rw [hseg] at hsome
                  exact (wfB_at hwf hsome hs2).2 hs3
            split
            · exact ⟨fun bs hbs => absurd hbs (by simp), fun e he => rfl⟩
            · refine ⟨?_, fun e he => absurd he (by simp)⟩
              intro bs hbs
              injection hbs with h1
              rw [← h1]
              simp only [List.length_take, List.length_drop, hblkQ]
              omega

/-- What a write does to `size` and the file position in every branch:
`size` never shrinks; a success returning `m` advances the position by
exactly `m` and sets `size = max(size, fpos + m)`; every failure leaves the
position where it was. -/
theorem scullc_write_cases (gQ : Nat) (dev : Dev) (fpos : Nat) (src : List Nat)
    (count : Nat) (intr a b c : Bool) :
    dev.size ≤ (scullc_write gQ dev fpos src count intr a b c).2.1.size ∧
    (∀ m, (scullc_write gQ dev fpos src count intr a b c).1 = .ok m →
       (scullc_write gQ dev fpos src count intr a b c).2.2 = fpos + m ∧
       (scullc_write gQ dev fpos src count intr a b c).2.1.size
         = max dev.size (fpos + m)) ∧
    (∀ e, (scullc_write gQ dev fpos src count intr a b c).1 = .error e →
       (scullc_write gQ dev fpos src count intr a b c).2.2 = fpos) := by
  unfold scullc_write
  cases intr with
  | true =>
    exact ⟨le_refl _, fun m hm => absurd hm (by simp), fun e he => rfl⟩
  | false =>
    simp only [Bool.false_eq_true, if_false]
    try simp only []
    generalize (if count > dev.quantum - fpos % (dev.quantum * dev.qset) % dev.quantum
        then dev.quantum - fpos % (dev.quantum * dev.qset) % dev.quantum
        else count) = n0
    split
    · exact ⟨le_refl _, fun m hm => absurd hm (by simp), fun e he => rfl⟩
    · split
      · exact ⟨le_refl _, fun m hm => absurd hm (by simp), fun e he => rfl⟩
      · split
        · exact ⟨le_refl _, fun m hm => absurd hm (by simp), fun e he => rfl⟩
        · split
          · exact ⟨le_refl _, fun m hm => absurd hm (by simp), fun e he => rfl⟩
          · refine ⟨by split <;> (simp only []; omega), ?_, fun e he => absurd he (by simp)⟩
            intro m hm
            injection hm with h1
            rw [← h1]
            exact ⟨rfl, by split <;> (simp only []; omega)⟩

set_option maxHeartbeats 1000000 in
/-- The caller-side write loop (one non-boundary-crossing call per block,
all external events succeeding, fuel at least the byte count): it writes
the whole byte sequence at consecutive offsets, advances the position past
it, raises `size` accordingly and preserves configuration, mapping counter,
well-formedness and every byte outside the written range. -/
theorem writeLoop_spec (gQ : Nat) (fuel : Nat) :
    ∀ (dev : Dev) (fpos : Nat) (src : List Nat),
    0 < dev.quantum → 0 < dev.qset → dev.segs ≠ [] → wfB dev = true →
    gQ = dev.quantum → src.length ≤ fuel →
    (writeLoop gQ fuel dev fpos src).2 = fpos + src.length ∧
    (writeLoop gQ fuel dev fpos src).1.quantum = dev.quantum ∧
    (writeLoop gQ fuel dev fpos src).1.qset = dev.qset ∧
    (writeLoop gQ fuel dev fpos src).1.vmas = dev.vmas ∧
    (writeLoop gQ fuel dev fpos src).1.segs ≠ [] ∧
    wfB (writeLoop gQ fuel dev fpos src).1 = true ∧
    (∀ i, i < src.length →
      byteAt (writeLoop gQ fuel dev fpos src).1 (fpos + i) = src[i]?) ∧
    (∀ x b, byteAt dev x = some b → x < fpos ∨ fpos + src.length ≤ x →
      byteAt (writeLoop gQ fuel dev fpos src).1 x = some b) ∧
    (writeLoop gQ fuel dev fpos src).1.size
      = if src.length = 0 then dev.size else max dev.size (fpos + src.length) := by
  induction fuel with
  | zero =>
    intro dev fpos src hq hqs hsegs hwf hg hfuel
    have hsrc0 : src = [] := List.length_eq_zero.mp (Nat.le_zero.mp hfuel)
    subst hsrc0
    exact ⟨rfl, rfl, rfl, rfl, hsegs, hwf, by intro i hi; simp at hi,
      fun x b hb _ => hb, by simp [writeLoop]⟩
  | succ fuel ih =>
    intro dev fpos src hq hqs hsegs hwf hg hfuel
    match src with
    | [] =>
      exact ⟨rfl, rfl, rfl, rfl, hsegs, hwf, by intro i hi; simp at hi,
        fun x b hb _ => hb, by simp [writeLoop]⟩
    | sh :: st =>
      have hlen1 : 0 < (sh :: st).length := by simp
      have hspec := scullc_write_spec gQ dev fpos (sh :: st) ((sh :: st).length)
        (min ((sh :: st).length)
          (dev.quantum - fpos % (dev.quantum * dev.qset) % dev.quantum))
        hq hqs hsegs hwf hg (le_refl _) rfl
      have hqplt : fpos % (dev.quantum * dev.qset) % dev.quantum < dev.quantum :=
        Nat.mod_lt _ hq
      have hn1 : 1 ≤ min ((sh :: st).length)
          (dev.quantum - fpos % (dev.quantum * dev.qset) % dev.quantum) := by
        simp only [List.length_cons]
        omega
      have hnlen : min ((sh :: st).length)
          (dev.quantum - fpos % (dev.quantum * dev.qset) % dev.quantum)
          ≤ (sh :: st).length := Nat.min_le_left _ _
      generalize hn : min ((sh :: st).length)
          (dev.quantum - fpos % (dev.quantum * dev.qset) % dev.quantum) = n
        at hspec hn1 hnlen
      have hstep : writeLoop gQ (fuel + 1) dev fpos (sh :: st) =
          match scullc_write gQ dev fpos (sh :: st) ((sh :: st).length)
              false true true true with
          | (.ok m, dev1, fpos1) => writeLoop gQ fuel dev1 fpos1 ((sh :: st).drop m)
          | (.error _, dev1, fpos1) => (dev1, fpos1) := rfl
      rcases hW : scullc_write gQ dev fpos (sh :: st) ((sh :: st).length)
          false true true true with ⟨res, dev1, fpos1⟩
      rw [hW] at hspec
      simp only [] at hspec
      obtain ⟨hres, hfp1, hdq, hds, hdv, hdsize, hdsegs, hdwf, hbytes, hframe⟩ := hspec
      subst hres
      subst hfp1
      rw [hstep, hW]
      try simp only []
      have hih := ih dev1 (fpos + n) ((sh :: st).drop n)
        (by rw [hdq]; exact hq) (by rw [hds]; exact hqs) hdsegs hdwf
        (by rw [hdq]; exact hg)
        (by rw [List.length_drop]; simp only [List.length_cons] at hfuel ⊢; omega)
      obtain ⟨hife, hifq, hifs, hifv, hifsegs, hifwf, hibytes, hiframe, hisize⟩ := hih
      have hdroplen : ((sh :: st).drop n).length = (sh :: st).length - n := by
        rw [List.length_drop]
      refine ⟨?_, ?_, ?_, ?_, hifsegs, hifwf, ?_, ?_, ?_⟩
      · rw [hife, hdroplen]
        simp only [List.length_cons] at hnlen ⊢
        omega
      · rw [hifq, hdq]
      · rw [hifs, hds]
      · rw [hifv, hdv]
      · intro i hi
        rcases Nat.lt_or_ge i n with hin | hin
        · have hbi : byteAt dev1 (fpos + i) = some ((sh :: st).get ⟨i, by omega⟩) := by
            rw [hbytes i hin, List.getElem?_eq_getElem (by omega)]
            rfl
          have := hiframe (fpos + i) _ hbi (Or.inl (by omega))
          rw [this, List.getElem?_eq_getElem (by omega)]
          rfl
        · have := hibytes (i - n) (by rw [hdroplen]; omega)
          rw [List.getElem?_drop] at this
          have harg : fpos + n + (i - n) = fpos + i := by omega
          have hidx : n + (i - n) = i := by omega
          rw [harg, hidx] at this
          exact this
      · intro x b hb hout
        have h1 : byteAt dev1 x = some b := by
          apply hframe x b hb
          rcases hout with h | h
          · exact Or.inl h
          · right
            simp only [List.length_cons] at h hnlen ⊢
            omega
        apply hiframe x b h1
        rcases hout with h | h
        · exact Or.inl (by omega)
        · right
          rw [hdroplen]
          simp only [List.length_cons] at h hnlen ⊢
          omega
      · rw [hisize, hdroplen, hdsize]
        simp only [List.length_cons]
        by_cases hz : (sh :: st).length - n = 0
        · simp only [List.length_cons] at hz
          rw [if_pos (by omega : st.length + 1 - n = 0)]
          rw [if_neg (by omega : ¬ st.length + 1 = 0)]
          simp only [List.length_cons] at hnlen
          congr 1
          omega
        · rw [if_neg (by simp only [List.length_cons] at hz ⊢; omega)]
          rw [if_neg (by omega : ¬ st.length + 1 = 0)]
          simp only [List.length_cons] at hnlen
          have : fpos + n + (st.length + 1 - n) = fpos + (st.length + 1) := by omega
          rw [this]
          omega

set_option maxHeartbeats 1000000 in
/-- The caller-side read loop: if every requested offset is backed by a
stored byte and the request stays within `size`, the loop returns exactly
those bytes, leaves the device untouched and advances the position past
them. -/
theorem readLoop_spec (fuel : Nat) :
    ∀ (dev : Dev) (p m : Nat) (out : List Nat),
    0 < dev.quantum → 0 < dev.qset → wfB dev = true →
    out.length = m → p + m ≤ dev.size →
    (∀ i, i < m → byteAt dev (p + i) = out[i]?) →
    m ≤ fuel →
    readLoop fuel dev p m = (out, dev, p + m) := by
  induction fuel with
  | zero =>
    intro dev p m out hq hqs hwf hlen hsz hbytes hfuel
    have hm0 : m = 0 := Nat.le_zero.mp hfuel
    subst hm0
    have hout : out = [] := List.length_eq_zero.mp hlen
    subst hout
    simp [readLoop]
  | succ fuel ih =>
    intro dev p m out hq hqs hwf hlen hsz hbytes hfuel
    by_cases hm0 : m = 0
    · subst hm0
      have hout : out = [] := List.length_eq_zero.mp hlen
      subst hout
      simp [readLoop]
    · have hm1 : 1 ≤ m := by omega
      have h0 : byteAt dev p = out[0]? := by
        have := hbytes 0 (by omega)
        rw [Nat.add_zero] at this
        exact this
      have h0s : ∃ b0, out[0]? = some b0 := by
        rw [List.getElem?_eq_getElem (by omega)]
        exact ⟨_, rfl⟩
      obtain ⟨b0, hb0⟩ := h0s
      rw [hb0] at h0
      obtain ⟨seg, slots, blkx, h1, h2, h3, h4⟩ :=
        lookupByte_some_elim (q := dev.quantum) (s := dev.qset) (l := dev.segs) h0
      have hblock : blockAt dev p = some blkx := by
        unfold blockAt
        rw [lookupBlock_seg h1, h2]
        try simp only []
        exact h3
      have hblkQ : blkx.length = dev.quantum := (wfB_at hwf h1 h2).2 h3
      have hread := scullc_read_chunk dev p m blkx (by omega) hblock
      have hmm : min m (dev.size - p) = m := by omega
      rw [hmm] at hread
      have hqplt : p % (dev.quantum * dev.qset) % dev.quantum < dev.quantum :=
        Nat.mod_lt _ hq
      have hk1 : 1 ≤ min m (dev.quantum - p % (dev.quantum * dev.qset) % dev.quantum) := by
        omega
      have hkm : min m (dev.quantum - p % (dev.quantum * dev.qset) % dev.quantum) ≤ m :=
        Nat.min_le_left _ _
      have hkq : min m (dev.quantum - p % (dev.quantum * dev.qset) % dev.quantum)
          ≤ dev.quantum - p % (dev.quantum * dev.qset) % dev.quantum :=
        Nat.min_le_right _ _
      generalize hk : min m (dev.quantum - p % (dev.quantum * dev.qset) % dev.quantum) = k
        at hread hk1 hkm hkq
      obtain ⟨hpdec, hsp_lt, hqp_lt⟩ := offset_decomp dev.quantum dev.qset p hq hqs
      have hchunklen : ((blkx.drop (p % (dev.quantum * dev.qset) % dev.quantum)).take k).length
          = k := by
        rw [List.length_take, List.length_drop, hblkQ]
        omega
      have hchunkbytes : ∀ i, i < k →
          ((blkx.drop (p % (dev.quantum * dev.qset) % dev.quantum)).take k)[i]?
            = out[i]? := by
        intro i hik
        have hqpi : p % (dev.quantum * dev.qset) % dev.quantum + i < dev.quantum := by
          omega
        have hxdec : p + i
            = p / (dev.quantum * dev.qset) * (dev.quantum * dev.qset) +
              (p % (dev.quantum * dev.qset) / dev.quantum * dev.quantum +
               (p % (dev.quantum * dev.qset) % dev.quantum + i)) := by
          conv_lhs => rw [hpdec]
          ring
        obtain ⟨hidx1, hidx2, hidx3⟩ :=
          encode_indices dev.quantum dev.qset (p / (dev.quantum * dev.qset))
            (p % (dev.quantum * dev.qset) / dev.quantum)
            (p % (dev.quantum * dev.qset) % dev.quantum + i) hq hsp_lt hqpi
        rw [← hxdec] at hidx1 hidx2 hidx3
        have hbi : byteAt dev (p + i) = out[i]? := hbytes i (by omega)
        have hseg' : dev.segs[(p + i) / (dev.quantum * dev.qset)]? = some seg := by
          rw [hidx1]
          exact h1
        have hb' : lookupBlock dev.quantum dev.qset dev.segs (p + i) = some blkx := by
          rw [lookupBlock_seg hseg', h2]
          try simp only []
          rw [hidx2]
          exact h3
        have hlb : lookupByte dev.quantum dev.qset dev.segs (p + i)
            = blkx[(p + i) % (dev.quantum * dev.qset) % dev.quantum]? :=
          lookupByte_block hb'
        rw [hidx3] at hlb
        have : blkx[p % (dev.quantum * dev.qset) % dev.quantum + i]? = out[i]? := by
          rw [← hlb]
          exact hbi
        rw [List.getElem?_take, if_pos hik, List.getElem?_drop]
        exact this
      have hchunk : (blkx.drop (p % (dev.quantum * dev.qset) % dev.quantum)).take k
          = out.take k := by
        apply List.ext_getElem?
        intro j
        rcases Nat.lt_or_ge j k with hj | hj
        · rw [hchunkbytes j hj, List.getElem?_take, if_pos hj]
        · rw [List.getElem?_eq_none (by rw [hchunklen]; omega),
            List.getElem?_eq_none (by rw [List.length_take]; omega)]
      have hstep : readLoop (fuel + 1) dev p m =
          match scullc_read dev p m false true with
          | (.ok bs, dev1, fpos1) =>
            if bs.isEmpty then ([], dev1, fpos1)
            else
              let r := readLoop fuel dev1 fpos1 (m - bs.length)
              (bs ++ r.1, r.2.1, r.2.2)
          | (.error _, dev1, fpos1) => ([], dev1, fpos1) := by
        match hm : m with
        | mm + 1 => rfl
      rw [hstep, hread]
      try simp only []
      have hemp : ((blkx.drop (p % (dev.quantum * dev.qset) % dev.quantum)).take k).isEmpty
          = false := by
        rw [List.isEmpty_eq_false]
        intro hc
        have := hchunklen
        rw [hc] at this
        simp at this
        omega
      rw [hemp]
      try simp only [Bool.false_eq_true, if_false]
      rw [hchunklen]
      have hihres := ih dev (p + k) (m - k) (out.drop k) hq hqs hwf
        (by rw [List.length_drop]; omega)
        (by omega)
        (by
          intro j hj
          have : p + k + j = p + (k + j) := by omega
          rw [this, List.getElem?_drop]
          exact hbytes (k + j) (by omega))
        (by omega)
      rw [hihres]
      try simp only []
      rw [hchunk, List.take_append_drop]
      have : p + k + (m - k) = p + m := by omega
      rw [this]

/-- C1: a read at or beyond `size` returns 0 bytes (success, not an
error), and a read strictly below `size` whose segment, block array or
block is absent (a hole) also returns 0 bytes for that call. -/
theorem C1_read_zero_at_end_or_hole (dev : Dev) (fpos count : Nat) (copyOk : Bool)
    (h : dev.size ≤ fpos ∨ (fpos < dev.size ∧ blockAt dev fpos = none)) :
    (scullc_read dev fpos count false copyOk).1 = .ok [] := by
  apply scullc_read_zero
  rcases h with h | ⟨_, h⟩
  · exact Or.inl h
  · exact Or.inr h

/-- Witness for C1: on the holey device, a read at offset 0 (a hole below
`size = 22`) and a read at offset 30 (beyond `size`) both return 0 bytes. -/
theorem C1_witness :
    (scullc_read devHole 0 2 false true).1 = .ok [] ∧
    (scullc_read devHole 30 4 false true).1 = .ok [] :=
  ⟨C1_read_zero_at_end_or_hole devHole 0 2 true (Or.inr ⟨by decide, by decide⟩),
   C1_read_zero_at_end_or_hole devHole 30 4 true (Or.inl (by decide))⟩

/-- C2: on a device configured with multi-page blocks (order 1), the scullp
mmap entry point rejects the mapping with ENODEV and leaves `vmas` alone,
but the scullv mmap entry point of this repository accepts it and
increments `vmas` — the order check the claim (and the file's own comment)
requires is missing from `scullv_mmap`. -/
theorem C2_scullv_mmap_missing_order_check :
    scullv_mmap pdevMulti = .ok ⟨1, 4, 4096, 1, [some [some 3]]⟩ ∧
    scullp_mmap pdevMulti = .error .eNODEV := by
  constructor
  · rfl
  · rfl

/-- Counterexample for C3: a read at offset 1 = `size` on a one-byte device
(a segment boundary) returns 0 bytes but extends the chain — the follow
walk on the read path allocates the missing segment, so this read does not
leave the device state unchanged. -/
theorem C3_counterexample :
    (scullc_read devSegBound 1 1 false true).1 = .ok [] ∧
    (scullc_read devSegBound 1 1 false true).2.1 ≠ devSegBound := by
  constructor
  · rfl
  · decide

/-- C3 (amended): a read leaves the configuration, `size`, the mapping
counter, every existing segment, block array and block unchanged and
allocates no block array or block; the only state change it can make is to
append freshly zeroed segments via the shared follow walk (which happens
when the target segment index lies past the current tail, e.g. at offset
equal to `size` on a segment boundary). -/
theorem C3_read_frame (dev : Dev) (fpos count : Nat) (intr copyOk : Bool) :
    (scullc_read dev fpos count intr copyOk).2.1.quantum = dev.quantum ∧
    (scullc_read dev fpos count intr copyOk).2.1.qset = dev.qset ∧
    (scullc_read dev fpos count intr copyOk).2.1.size = dev.size ∧
    (scullc_read dev fpos count intr copyOk).2.1.vmas = dev.vmas ∧
    ∃ k, (scullc_read dev fpos count intr copyOk).2.1.segs
      = dev.segs ++ List.replicate k emptySeg :=
  scullc_read_state dev fpos count intr copyOk

/-- C4: trim on a mapped device fails with EBUSY and changes nothing; trim
on an unmapped device resets it to a single bare head segment with size 0
and the configured default quantum/qset, is idempotent, and a subsequent
read anywhere returns 0 bytes. -/
theorem C4_trim (g1 g2 : Nat) (dev : Dev) :
    (dev.vmas ≠ 0 → scullc_trim g1 g2 dev = (.error .eBUSY, dev)) ∧
    (dev.vmas = 0 →
      scullc_trim g1 g2 dev =
        (.ok (), ⟨g1, g2, 0, 0, [emptySeg]⟩) ∧
      scullc_trim g1 g2 (scullc_trim g1 g2 dev).2 = scullc_trim g1 g2 dev ∧
      (∀ fpos count copyOk,
        (scullc_read (scullc_trim g1 g2 dev).2 fpos count false copyOk).1 = .ok [])) := by
  constructor
  · intro hv
    unfold scullc_trim
    rw [if_pos hv]
  · intro hv
    have htrim : scullc_trim g1 g2 dev = (.ok (), ⟨g1, g2, 0, 0, [emptySeg]⟩) := by
      unfold scullc_trim
      rw [if_neg (by omega), hv]
    refine ⟨htrim, ?_, ?_⟩
    · rw [htrim]
      unfold scullc_trim
      rw [if_neg (by simp)]
    · intro fpos count copyOk
      rw [htrim]
      apply scullc_read_zero
      left
      show (0 : Nat) ≤ fpos
      omega

/-- Witness for C4: the device with two live mappings refuses trim
unchanged; the holey unmapped device resets fully and reads 0 bytes
afterwards. -/
theorem C4_witness :
    scullc_trim 4 4 devBusy = (.error .eBUSY, devBusy) ∧
    scullc_trim 4 2 devHole = (.ok (), ⟨4, 2, 0, 0, [emptySeg]⟩) ∧
    (scullc_read (scullc_trim 4 2 devHole).2 5 3 false true).1 = .ok [] :=
  ⟨(C4_trim 4 4 devBusy).1 (by decide),
   ((C4_trim 4 2 devHole).2 (by decide)).1,
   ((C4_trim 4 2 devHole).2 (by decide)).2.2 5 3 true⟩

/-- C5: a successful write of positive length copies exactly
`n = min(count, quantum - intra_offset)` bytes into the addressed block at
the intra-block offset (never crossing the block boundary), returns `n`,
advances the position by `n` and sets `size = max(size, offset + n)`. -/
theorem C5_write_success (gQ : Nat) (dev : Dev) (fpos : Nat) (src : List Nat)
    (count n : Nat) (hq : 0 < dev.quantum) (hqs : 0 < dev.qset)
    (hsegs : dev.segs ≠ []) (hwf : wfB dev = true) (hg : gQ = dev.quantum)
    (hsrc : count ≤ src.length) (hcount : 0 < count)
    (hn : n = min count (dev.quantum - fpos % (dev.quantum * dev.qset) % dev.quantum)) :
    (scullc_write gQ dev fpos src count false true true true).1 = .ok n ∧
    (scullc_write gQ dev fpos src count false true true true).2.2 = fpos + n ∧
    (scullc_write gQ dev fpos src count false true true true).2.1.size
      = max dev.size (fpos + n) ∧
    fpos % (dev.quantum * dev.qset) % dev.quantum + n ≤ dev.quantum ∧
    (∀ i, i < n →
      byteAt (scullc_write gQ dev fpos src count false true true true).2.1 (fpos + i)
        = src[i]?) := by
  have h := scullc_write_spec gQ dev fpos src count n hq hqs hsegs hwf hg hsrc hn
  have hqp : fpos % (dev.quantum * dev.qset) % dev.quantum < dev.quantum :=
    Nat.mod_lt _ hq
  exact ⟨h.1, h.2.1, h.2.2.2.2.2.1, by omega, h.2.2.2.2.2.2.2.2.1⟩

/-- Witness for C5: writing 5 bytes at offset 2 on the empty quantum-4
device copies exactly 2 bytes (up to the block end), returns 2 and raises
size to 4. -/
theorem C5_witness :
    (scullc_write 4 devE 2 [9, 9, 9, 9, 9] 5 false true true true).1 = .ok 2 ∧
    (scullc_write 4 devE 2 [9, 9, 9, 9, 9] 5 false true true true).2.2 = 2 + 2 ∧
    (scullc_write 4 devE 2 [9, 9, 9, 9, 9] 5 false true true true).2.1.size
      = max 0 (2 + 2) ∧
    byteAt (scullc_write 4 devE 2 [9, 9, 9, 9, 9] 5 false true true true).2.1 (2 + 0)
      = [9, 9, 9, 9, 9][0]? := by
  have h := C5_write_success 4 devE 2 [9, 9, 9, 9, 9] 5 2 (by decide) (by decide)
    (by decide) (by decide) rfl (by decide) (by decide) (by decide)
  exact ⟨h.1, h.2.1, h.2.2.1, h.2.2.2.2 0 (by decide)⟩

/-- C6: round-trip — writing a byte sequence at offset `o` through the
per-block write loop and reading it back through the read loop returns
exactly the written bytes, and (for a nonempty sequence) leaves
`size = max(old size, o + n)`; with `quantum = 4096`, `qset = 4` and 5000
bytes at offset 0 on an empty device this gives back the 5000 bytes with
`size = 5000`. -/
theorem C6_roundtrip (gQ : Nat) (dev : Dev) (o : Nat) (src : List Nat)
    (hq : 0 < dev.quantum) (hqs : 0 < dev.qset) (hsegs : dev.segs ≠ [])
    (hwf : wfB dev = true) (hg : gQ = dev.quantum) :
    (readLoop src.length (writeLoop gQ src.length dev o src).1 o src.length).1 = src ∧
    (src ≠ [] →
      (writeLoop gQ src.length dev o src).1.size = max dev.size (o + src.length)) := by
  obtain ⟨hwfe, hwq, hws, hwv, hwsegs, hwwf, hwbytes, hwframe, hwsize⟩ :=
    writeLoop_spec gQ src.length dev o src hq hqs hsegs hwf hg (le_refl _)
  by_cases hsrc0 : src = []
  · subst hsrc0
    exact ⟨rfl, fun hne => absurd rfl hne⟩
  · have hlen1 : 0 < src.length := List.length_pos.mpr hsrc0
    have hsize : (writeLoop gQ src.length dev o src).1.size
        = max dev.size (o + src.length) := by
      rw [hwsize, if_neg (by omega)]
    have hR := readLoop_spec src.length (writeLoop gQ src.length dev o src).1
      o src.length src
      (by rw [hwq]; exact hq) (by rw [hws]; exact hqs) hwwf rfl
      (by rw [hsize]; omega)
      (fun i hi => hwbytes i hi)
      (le_refl _)
    rw [hR]
    exact ⟨rfl, fun _ => hsize⟩

/-- Witness for C6: writing [1,2,3,4,5] at offset 2 on the empty quantum-4
device (crossing a block boundary) and reading 5 bytes back returns the
original bytes, with size 7. -/
theorem C6_witness :
    (readLoop 5 (writeLoop 4 5 devE 2 [1, 2, 3, 4, 5]).1 2 5).1 = [1, 2, 3, 4, 5] ∧
    (writeLoop 4 5 devE 2 [1, 2, 3, 4, 5]).1.size = max 0 (2 + 5) := by
  have h := C6_roundtrip 4 devE 2 [1, 2, 3, 4, 5] (by decide) (by decide) (by decide)
    (by decide) rfl
  exact ⟨h.1, h.2 (by decide)⟩

/-- C7: a page fault at or beyond `size` fails with no page and untouched
reference counts; a fault below `size` that lands in a hole fails the same
way; a fault on an allocated block returns that block's page with its
reference count incremented by exactly 1 and every other count unchanged. -/
theorem C7_fault (dev : PDev) (rc : Nat → Nat) (off : Nat) :
    (dev.size ≤ off → scullp_vma_nopage dev rc off = (none, rc)) ∧
    (off < dev.size →
      pageLookup dev.segs dev.qset (off >>> PAGE_SHIFT) = none →
      scullp_vma_nopage dev rc off = (none, rc)) ∧
    (∀ pid, off < dev.size →
      pageLookup dev.segs dev.qset (off >>> PAGE_SHIFT) = some pid →
      (scullp_vma_nopage dev rc off).1 = some pid ∧
      (scullp_vma_nopage dev rc off).2 pid = rc pid + 1 ∧
      (∀ p2, p2 ≠ pid → (scullp_vma_nopage dev rc off).2 p2 = rc p2)) := by
  refine ⟨?_, ?_, ?_⟩
  · intro h
    unfold scullp_vma_nopage
    rw [if_pos (by omega)]
  · intro h hl
    unfold scullp_vma_nopage
    rw [if_neg (by omega), hl]
  · intro pid h hl
    unfold scullp_vma_nopage
    rw [if_neg (by omega), hl]
    refine ⟨rfl, ?_, ?_⟩
    · show (if pid = pid then rc pid + 1 else rc pid) = rc pid + 1
      rw [if_pos rfl]
    · intro p2 hp2
      show (if p2 = pid then rc p2 + 1 else rc p2) = rc p2
      rw [if_neg hp2]

/-- Witness for C7: on the one-page device (page 7, hole in slot 1,
size 8192), a fault at 9000 and at 4096 fail with counts unchanged, and a
fault at 0 returns page 7 with its count going from 0 to 1 while page 5
stays 0. -/
theorem C7_witness :
    scullp_vma_nopage pdevMap rc0 9000 = (none, rc0) ∧
    scullp_vma_nopage pdevMap rc0 4096 = (none, rc0) ∧
    (scullp_vma_nopage pdevMap rc0 0).1 = some 7 ∧
    (scullp_vma_nopage pdevMap rc0 0).2 7 = rc0 7 + 1 ∧
    (scullp_vma_nopage pdevMap rc0 0).2 5 = rc0 5 :=
  ⟨(C7_fault pdevMap rc0 9000).1 (by decide),
   (C7_fault pdevMap rc0 4096).2.1 (by decide) (by decide),
   ((C7_fault pdevMap rc0 0).2.2 7 (by decide) (by decide)).1,
   ((C7_fault pdevMap rc0 0).2.2 7 (by decide) (by decide)).2.1,
   ((C7_fault pdevMap rc0 0).2.2 7 (by decide) (by decide)).2.2 5 (by decide)⟩

/-- C8: `size` never decreases under any read, write or seek step, nor
under any sequence of such steps; a successful write ending at `fpos + m`
leaves `size ≥ fpos + m`; trim resets `size` to 0 when unmapped and
changes nothing when mapped. -/
theorem C8_size_monotone :
    (∀ s op, Op.isTrim op = false → s.1.size ≤ (stepOp s op).1.size) ∧
    (∀ s ops, (∀ op ∈ ops, Op.isTrim op = false) →
      s.1.size ≤ (runOps s ops).1.size) ∧
    (∀ gq dev fpos src count i a b c m,
      (scullc_write gq dev fpos src count i a b c).1 = .ok m →
      fpos + m ≤ (scullc_write gq dev fpos src count i a b c).2.1.size) ∧
    (∀ g1 g2 dev, dev.vmas = 0 → ((scullc_trim g1 g2 dev).2).size = 0) ∧
    (∀ g1 g2 dev, dev.vmas ≠ 0 → (scullc_trim g1 g2 dev).2 = dev) := by
  have hstep : ∀ s op, Op.isTrim op = false → s.1.size ≤ (stepOp s op).1.size := by
    intro s op hop
    obtain ⟨d, p⟩ := s
    cases op with
    | opRead c i cok =>
      have h := (scullc_read_state d p c i cok).2.2.1
      simp only [stepOp]
      omega
    | opWrite gq src c i a b cok =>
      have h := (scullc_write_cases gq d p src c i a b cok).1
      simp only [stepOp]
      omega
    | opSeek off w =>
      simp only [stepOp]
      split <;> exact le_refl _
    | opTrim g1 g2 =>
      simp [Op.isTrim] at hop
  refine ⟨hstep, ?_, ?_, ?_, ?_⟩
  · intro s ops
    induction ops generalizing s with
    | nil => intro _; exact le_refl _
    | cons op rest ihops =>
      intro h
      show s.1.size ≤ (runOps (stepOp s op) rest).1.size
      calc s.1.size ≤ (stepOp s op).1.size := hstep s op (h op (by simp))
        _ ≤ (runOps (stepOp s op) rest).1.size :=
          ihops (stepOp s op) (fun o ho => h o (by simp [ho]))
  · intro gq dev fpos src count i a b c m hok
    have h := ((scullc_write_cases gq dev fpos src count i a b c).2.1 m hok).2
    omega
  · intro g1 g2 dev hv
    unfold scullc_trim
    rw [if_neg (by omega)]
  · intro g1 g2 dev hv
    unfold scullc_trim
    rw [if_pos hv]

/-- Witness for C8: a concrete read step, a read-then-seek sequence, a
successful 1-byte write at offset 2, and both trim outcomes. -/
theorem C8_witness :
    devHole.size ≤ (stepOp (devHole, 0) (Op.opRead 3 false true)).1.size ∧
    devHole.size ≤ (runOps (devHole, 0)
      [Op.opRead 3 false true, Op.opSeek 5 0]).1.size ∧
    2 + 1 ≤ (scullc_write 4 devSmall 2 [7] 1 false true true true).2.1.size ∧
    ((scullc_trim 4 2 devHole).2).size = 0 ∧
    (scullc_trim 4 4 devBusy).2 = devBusy := by
  have h := C8_size_monotone
  exact ⟨h.1 (devHole, 0) (Op.opRead 3 false true) (by decide),
    h.2.1 (devHole, 0) [Op.opRead 3 false true, Op.opSeek 5 0] (by decide),
    h.2.2.1 4 devSmall 2 [7] 1 false true true true 1 rfl,
    h.2.2.2.1 4 2 devHole (by decide),
    h.2.2.2.2 4 4 devBusy (by decide)⟩

/-- Counterexample for C9: a 0-length write at offset 1 on the empty
2-byte-quantum device returns success (0 bytes) but does change the
device: it allocates the block array and a zero-filled block and raises
`size` from 0 to 1, so it is not a no-op. -/
theorem C9_counterexample :
    (scullc_write 2 devSmall 1 [] 0 false true true true).1 = .ok 0 ∧
    (scullc_write 2 devSmall 1 [] 0 false true true true).2.1 ≠ devSmall := by
  constructor
  · rfl
  · decide

/-- C9 (amended): a 0-length write returns success (0 bytes written),
leaves the file position and every already-stored byte unchanged, but is
not a state no-op: it allocates the segment, block array and zero-filled
block addressed by the offset if they are missing and raises `size` to
`max(size, offset)`. -/
theorem C9_zero_write (gQ : Nat) (dev : Dev) (fpos : Nat) (src : List Nat)
    (hq : 0 < dev.quantum) (hqs : 0 < dev.qset) (hsegs : dev.segs ≠ [])
    (hwf : wfB dev = true) (hg : gQ = dev.quantum) :
    (scullc_write gQ dev fpos src 0 false true true true).1 = .ok 0 ∧
    (scullc_write gQ dev fpos src 0 false true true true).2.2 = fpos ∧
    (scullc_write gQ dev fpos src 0 false true true true).2.1.size
      = max dev.size fpos ∧
    (∀ x b, byteAt dev x = some b →
      byteAt (scullc_write gQ dev fpos src 0 false true true true).2.1 x = some b) := by
  have h := scullc_write_spec gQ dev fpos src 0 0 hq hqs hsegs hwf hg (by omega)
    (by omega)
  refine ⟨h.1, ?_, ?_, ?_⟩
  · rw [h.2.1]
    omega
  · rw [h.2.2.2.2.2.1]
    omega

  · intro x b hb
    exact h.2.2.2.2.2.2.2.2.2 x b hb (by omega)

/-- Witness for C9 (amended): the 0-length write at offset 1 on the empty
device returns 0, keeps the position and sets size to max 0 1 = 1. -/
theorem C9_witness :
    (scullc_write 2 devSmall 1 [] 0 false true true true).1 = .ok 0 ∧
    (scullc_write 2 devSmall 1 [] 0 false true true true).2.2 = 1 ∧
    (scullc_write 2 devSmall 1 [] 0 false true true true).2.1.size = max 0 1 := by
  have h := C9_zero_write 2 devSmall 1 [] (by decide) (by decide) (by decide)
    (by decide) rfl
  exact ⟨h.1, h.2.1, h.2.2.1⟩

/-- C10: the file position advances by exactly the number of bytes a read
hands back or a write reports written, and stays unchanged on every error
outcome (interrupted lock wait, allocation failure, user-copy fault) — and
hence also on every 0-byte outcome, since advancing by 0 is no change. -/
theorem C10_fpos_advance (dev : Dev) (fposR fposW count : Nat)
    (intr copyOk : Bool) (gq : Nat) (src : List Nat) (countW : Nat)
    (iW a b c : Bool) (hwf : wfB dev = true) :
    (∀ bs, (scullc_read dev fposR count intr copyOk).1 = .ok bs →
      (scullc_read dev fposR count intr copyOk).2.2 = fposR + bs.length) ∧
    (∀ e, (scullc_read dev fposR count intr copyOk).1 = .error e →
      (scullc_read dev fposR count intr copyOk).2.2 = fposR) ∧
    (∀ m, (scullc_write gq dev fposW src countW iW a b c).1 = .ok m →
      (scullc_write gq dev fposW src countW iW a b c).2.2 = fposW + m) ∧
    (∀ e, (scullc_write gq dev fposW src countW iW a b c).1 = .error e →
      (scullc_write gq dev fposW src countW iW a b c).2.2 = fposW) := by
  have hr := scullc_read_fpos dev fposR count intr copyOk hwf
  have hw := scullc_write_cases gq dev fposW src countW iW a b c
  exact ⟨hr.1, hr.2, fun m hm => (hw.2.1 m hm).1, hw.2.2⟩

/-- Witness for C10: a 2-byte read advances the position by 2; the same
read with an interrupted lock wait leaves it; a successful 1-byte write
advances by 1; the same write interrupted leaves it. -/
theorem C10_witness :
    (scullc_read devHole 20 2 false true).2.2 = 20 + 2 ∧
    (scullc_read devHole 20 2 true true).2.2 = 20 ∧
    (scullc_write 4 devHole 3 [5] 1 false true true true).2.2 = 3 + 1 ∧
    (scullc_write 4 devHole 3 [5] 1 true true true true).2.2 = 3 := by
  have h1 := C10_fpos_advance devHole 20 3 2 false true 4 [5] 1 false true true true
    (by decide)
  have h2 := C10_fpos_advance devHole 20 3 2 true true 4 [5] 1 true true true true
    (by decide)
  exact ⟨by
      have := h1.1 [7, 7] rfl
      exact this,
    h2.2.1 Err.eRESTARTSYS rfl,
    h1.2.2.1 1 rfl,
    h2.2.2.2 Err.eRESTARTSYS rfl⟩
